import Mathlib

/-!
# rcd::List — a doubly linked list over manually owned nodes (src/src/List.h)

Shallow embedding of the container and of the demonstration caller
(src/src/main.cpp).

* Memory is a heap of node slots.  An address is an index into the heap, a
  pointer is an `Option Nat` (`none` is the null pointer), `new` appends a slot
  and `delete` empties one; addresses are never reused, so reading or writing
  through a null or dangling pointer is always seen and reported as
  `Outcome.undefined`.
* A list object is the triple `head`, `tail`, `num_nodes`.
* A member function takes the heap and the list object and returns an
  `Outcome`: a normal return with the new heap and list object, the
  `std::out_of_range` exception together with the heap and list object as they
  are when it is thrown, undefined behaviour, or a loop that never ends.
* `size_type` values are natural numbers.  `--num_nodes` wraps at zero as a
  64-bit `std::size_t` does (`dec`).  `++num_nodes` is written `+ 1`: that is
  the machine increment `inc` exactly while the counter is below `SIZE_MAX`
  (`inc_of_lt`), and it is not at `SIZE_MAX`, where the machine wraps to 0.  A
  counter that is the number of nodes of a chain stays below `SIZE_MAX` (that
  many nodes do not fit a 64-bit address space); a statement about a counter
  that is not tied to a chain carries the bound as a hypothesis.
* `erase(0)` in `destroy_list` is an overloaded call whose meaning depends on
  the element type; see `erase_zero`.
* `T` is any type; `operator==` on `T` is a `BEq T` instance, with no law
  assumed about it.
-/

namespace rcd

/-- Node of the list (class `Node<T>`): the stored data and the two links. -/
structure Node (T : Type) where
  data : T
  prev : Option Nat
  next : Option Nat
  deriving DecidableEq, Repr

/-- Heap of node slots; `none` is a slot whose node has been deleted. -/
abbrev Heap (T : Type) := List (Option (Node T))

/-- Data members of class `List<T>`: `head`, `tail`, `num_nodes`. -/
structure LList where
  head : Option Nat
  tail : Option Nat
  num_nodes : Nat
  deriving DecidableEq, Repr

/-- Result of running a member function. -/
inductive Outcome (T α : Type) where
  /-- normal return, with the heap and the list object after the call -/
  | ok (val : α) (h : Heap T) (l : LList)
  /-- `std::out_of_range` thrown, with the heap and the list object at the throw -/
  | out_of_range (h : Heap T) (l : LList)
  /-- a null or dangling pointer was dereferenced -/
  | undefined
  /-- a loop that never ends -/
  | diverges
  deriving DecidableEq, Repr

/-- How a read-only loop can go wrong. -/
inductive Fault where
  | undefined
  | diverges
  deriving DecidableEq, Repr

/-- The outcome of a member function whose loop went wrong. -/
def Fault.outcome {T α : Type} : Fault → Outcome T α
  | .undefined => .undefined
  | .diverges => .diverges

/-- Largest value of a 64-bit `std::size_t`. -/
def SIZE_MAX : Nat := 2 ^ 64 - 1

/-- The statement `--n` on a `size_type`. -/
def dec (n : Nat) : Nat := if n = 0 then SIZE_MAX else n - 1

/-- The statement `++n` on a `size_type`, as the machine runs it.  The member
functions below write `n + 1`, which is `inc n` whenever `n < SIZE_MAX`. -/
def inc (n : Nat) : Nat := if n = SIZE_MAX then 0 else n + 1

/-- Read through a pointer: `none` when it is null or dangling. -/
def Heap.deref {T : Type} (h : Heap T) : Option Nat → Option (Node T)
  | none => none
  | some a => h[a]?.join

/-- Address the next `new Node<T>(...)` returns. -/
def Heap.fresh {T : Type} (h : Heap T) : Nat := h.length

/-- Heap after `new Node<T>(d, p, n)`. -/
def Heap.alloc {T : Type} (h : Heap T) (n : Node T) : Heap T := h ++ [some n]

/-- Assignment `p->prev = q`. -/
def Heap.set_prev {T : Type} (h : Heap T) (p q : Option Nat) : Option (Heap T) :=
  match p with
  | none => none
  | some a =>
    match h.deref (some a) with
    | none => none
    | some n => some (h.set a (some { n with prev := q }))

/-- Assignment `p->next = q`. -/
def Heap.set_next {T : Type} (h : Heap T) (p q : Option Nat) : Option (Heap T) :=
  match p with
  | none => none
  | some a =>
    match h.deref (some a) with
    | none => none
    | some n => some (h.set a (some { n with next := q }))

/-- Heap after `delete(p)` for a live node at address `a`. -/
def Heap.free {T : Type} (h : Heap T) (a : Nat) : Heap T := h.set a none

/-- Member `size()`. -/
def LList.size (l : LList) : Nat := l.num_nodes

/-- Member `empty()`: `num_nodes == 0`. -/
def LList.empty (l : LList) : Bool := l.num_nodes == 0

/-- Default constructor `List()`. -/
def LList.new : LList := { head := none, tail := none, num_nodes := 0 }

/-- Member `check_range`: throws when `index < 0 || index >= num_nodes`. -/
def check_range {T : Type} (h : Heap T) (l : LList) (index : Nat) : Outcome T Unit :=
  if index < 0 ∨ index ≥ l.num_nodes then .out_of_range h l else .ok () h l

/-- Member `push_front`.  `++num_nodes` is `+ 1`: the machine increment while
`num_nodes < SIZE_MAX`. -/
def push_front {T : Type} (h : Heap T) (l : LList) (data : T) : Outcome T Unit :=
  if l.empty then
    let new_node := h.fresh
    let h1 := h.alloc { data := data, prev := none, next := none }
    .ok () h1 { head := some new_node, tail := some new_node, num_nodes := l.num_nodes + 1 }
  else
    let new_node := h.fresh
    let h1 := h.alloc { data := data, prev := none, next := l.head }
    -- head = new_node; head->prev = 0;
    match h1.set_prev (some new_node) none with
    | none => .undefined
    | some h2 => .ok () h2 { l with head := some new_node, num_nodes := l.num_nodes + 1 }

/-- Member `push_back`.  `++num_nodes` is `+ 1`: the machine increment while
`num_nodes < SIZE_MAX`. -/
def push_back {T : Type} (h : Heap T) (l : LList) (data : T) : Outcome T Unit :=
  if l.empty then
    let new_node := h.fresh
    let h1 := h.alloc { data := data, prev := none, next := none }
    .ok () h1 { head := some new_node, tail := some new_node, num_nodes := l.num_nodes + 1 }
  else
    let new_node := h.fresh
    let h1 := h.alloc { data := data, prev := l.tail, next := none }
    -- tail->next = new_node; tail = new_node;
    match h1.set_next l.tail (some new_node) with
    | none => .undefined
    | some h2 => .ok () h2 { l with tail := some new_node, num_nodes := l.num_nodes + 1 }

/-- Loop of `insert` and `erase(index)`:
`for (i = 0; curr != 0; curr = curr->next) if (index == i++) break;`
started at `curr` with `index - i` steps to go.  The outer `none` is a
dereference of a dangling pointer; the inner value is `curr` after the loop. -/
def seek {T : Type} (h : Heap T) : Nat → Option Nat → Option (Option Nat)
  | _, none => some none
  | 0, some a => some (some a)
  | i + 1, some a =>
    match h.deref (some a) with
    | none => none
    | some n => seek h i n.next

/-- Member `insert`.  `++num_nodes` is `+ 1`: the machine increment while
`num_nodes < SIZE_MAX`. -/
def insert {T : Type} (h : Heap T) (l : LList) (index : Nat) (data : T) : Outcome T Unit :=
  if l.empty && index == 0 then
    let new_node := h.fresh
    let h1 := h.alloc { data := data, prev := none, next := none }
    .ok () h1 { head := some new_node, tail := some new_node, num_nodes := l.num_nodes + 1 }
  else
    match check_range h l index with
    | .out_of_range h0 l0 => .out_of_range h0 l0
    | .undefined => .undefined
    | .diverges => .diverges
    | .ok _ h l =>
      match seek h index l.head with
      | none => .undefined
      | some none => .ok () h { l with num_nodes := l.num_nodes + 1 }
      | some (some curr) =>
        match h.deref (some curr) with
        | none => .undefined
        | some c =>
          if c.prev = none then
            let new_node := h.fresh
            let h1 := h.alloc { data := data, prev := none, next := l.head }
            .ok () h1 { l with head := some new_node, num_nodes := l.num_nodes + 1 }
          else if c.next = none then
            let new_node := h.fresh
            let h1 := h.alloc { data := data, prev := l.tail, next := none }
            match h1.set_next l.tail (some new_node) with
            | none => .undefined
            | some h2 => .ok () h2 { l with tail := some new_node, num_nodes := l.num_nodes + 1 }
          else
            let new_node := h.fresh
            let h1 := h.alloc { data := data, prev := c.prev, next := some curr }
            -- curr->prev->next = new_node;
            match h1.set_next c.prev (some new_node) with
            | none => .undefined
            | some h2 => .ok () h2 { l with num_nodes := l.num_nodes + 1 }

/-- Body shared by both `erase` members once `curr` is found (`curr != 0`):
unlink the node, delete it, decrement the count. -/
def unlink {T : Type} (h : Heap T) (l : LList) (curr : Nat) : Outcome T Unit :=
  match h.deref (some curr) with
  | none => .undefined
  | some c =>
    -- if (curr->prev == 0) head = curr->next; else curr->prev->next = curr->next;
    let step1 : Option (Heap T × LList) :=
      if c.prev = none then some (h, { l with head := c.next })
      else (h.set_next c.prev c.next).map (fun h1 => (h1, l))
    match step1 with
    | none => .undefined
    | some (h1, l1) =>
      match h1.deref (some curr) with
      | none => .undefined
      | some c1 =>
        -- if (curr->next == 0) tail = curr->prev; else curr->next->prev = curr->prev;
        let step2 : Option (Heap T × LList) :=
          if c1.next = none then some (h1, { l1 with tail := c1.prev })
          else (h1.set_prev c1.next c1.prev).map (fun h2 => (h2, l1))
        match step2 with
        | none => .undefined
        | some (h2, l2) =>
          -- delete(curr); --num_nodes;
          .ok () (h2.free curr) { l2 with num_nodes := dec l2.num_nodes }

/-- Loop of `erase(const T&)`:
`for (; curr != 0; curr = curr->next) if (curr->data == data) break;`
The loop only reads the heap.  A walk that visits more live nodes than the
heap has slots has visited one of them twice, so it is on a cycle of nodes none
of which matches: running out of `fuel` is a loop that never ends. -/
def erase_loop {T : Type} [BEq T] (h : Heap T) (data : T) :
    Nat → Option Nat → Except Fault (Option Nat)
  | _, none => .ok none
  | 0, some _ => .error .diverges
  | fuel + 1, some a =>
    match h.deref (some a) with
    | none => .error .undefined
    | some n => if n.data == data then .ok (some a) else erase_loop h data fuel n.next

/-- Member `erase(const T& data)`. -/
def erase {T : Type} [BEq T] (h : Heap T) (l : LList) (data : T) : Outcome T Unit :=
  match erase_loop h data (h.length + 1) l.head with
  | .error f => f.outcome
  | .ok none => .ok () h l
  | .ok (some curr) => unlink h l curr

/-- Member `erase(const size_type index)`. -/
def erase_index {T : Type} (h : Heap T) (l : LList) (index : Nat) : Outcome T Unit :=
  match check_range h l index with
  | .out_of_range h0 l0 => .out_of_range h0 l0
  | .undefined => .undefined
  | .diverges => .diverges
  | .ok _ h l =>
    match seek h index l.head with
    | none => .undefined
    | some none => .ok () h l
    | some (some curr) => unlink h l curr

/-- Member `at`: `check_range(index)`, then
`for (i = 0; i != index; n = n->next, ++i);` and `return n->data`.
`at_loop` is the loop with `index - i` steps to go; it gives `n` after the
loop, or `none` when `n->next` is read through a null or dangling pointer. -/
def at_loop {T : Type} (h : Heap T) : Nat → Option Nat → Option (Option Nat)
  | 0, n => some n
  | i + 1, n =>
    match h.deref n with
    | none => none
    | some node => at_loop h i node.next

/-- Member `at` (see `at_loop`). -/
def at_index {T : Type} (h : Heap T) (l : LList) (index : Nat) : Outcome T T :=
  match check_range h l index with
  | .out_of_range h0 l0 => .out_of_range h0 l0
  | .undefined => .undefined
  | .diverges => .diverges
  | .ok _ h l =>
    match (at_loop h index l.head).bind h.deref with
    | none => .undefined
    | some node => .ok node.data h l

/-- Member `operator[]`: `return at(index)`. -/
def operator_index {T : Type} (h : Heap T) (l : LList) (index : Nat) : Outcome T T :=
  at_index h l index

/-- Loop of `find`:
`for (prev = 0, curr = head; curr != 0; prev = curr, curr = curr->next)`
`if (curr->data == data) return true;` and `return false` after it
(`fuel` as in `erase_loop`). -/
def find_loop {T : Type} [BEq T] (h : Heap T) (data : T) :
    Nat → Option Nat → Except Fault Bool
  | _, none => .ok false
  | 0, some _ => .error .diverges
  | fuel + 1, some a =>
    match h.deref (some a) with
    | none => .error .undefined
    | some n => if n.data == data then .ok true else find_loop h data fuel n.next

/-- Member `find`. -/
def find {T : Type} [BEq T] (h : Heap T) (l : LList) (data : T) : Outcome T Bool :=
  match find_loop h data (h.length + 1) l.head with
  | .error f => f.outcome
  | .ok b => .ok b h l

/-- Members `begin()`: `return head->data`. -/
def begin_ {T : Type} (h : Heap T) (l : LList) : Outcome T T :=
  match h.deref l.head with
  | none => .undefined
  | some n => .ok n.data h l

/-- Members `end()`: `return tail->data`. -/
def end_ {T : Type} (h : Heap T) (l : LList) : Outcome T T :=
  match h.deref l.tail with
  | none => .undefined
  | some n => .ok n.data h l

/-- Loop of `copy_nodes`:
`for (node = cpy.head; node != 0; node = node->next) push_back(node->data);`
with `l` the list object that is written.  The heap at the start bounds the
number of nodes a walk that ends can visit, so running out of `fuel` is a loop
that never ends. -/
def copy_loop {T : Type} : Nat → Heap T → LList → Option Nat → Outcome T Unit
  | _, h, l, none => .ok () h l
  | 0, _, _, some _ => .diverges
  | fuel + 1, h, l, some a =>
    match h.deref (some a) with
    | none => .undefined
    | some n =>
      match push_back h l n.data with
      | .ok _ h1 l1 =>
        match h1.deref (some a) with
        | none => .undefined
        | some n1 => copy_loop fuel h1 l1 n1.next
      | .out_of_range h0 l0 => .out_of_range h0 l0
      | .undefined => .undefined
      | .diverges => .diverges

/-- Member `copy_nodes(cpy)` run on the list object `l`. -/
def copy_nodes {T : Type} (h : Heap T) (l : LList) (cpy : LList) : Outcome T Unit :=
  copy_loop (h.length + 1) h l cpy.head

/-- Copy constructor `List(const List& cpy)`: members zeroed, then
`copy_nodes(cpy)`. -/
def copy_construct {T : Type} (h : Heap T) (cpy : LList) : Outcome T Unit :=
  copy_nodes h LList.new cpy

/-- The call `erase(0)` written in `destroy_list`.  The argument is an `int`
literal and `erase` is overloaded (`erase(const T&)` and
`erase(const size_type)`), so the member that runs depends on the element type.
For `T = int` the by-value member is an exact match and is selected: the call
erases the first element equal to 0.  For an element type that `int` converts
to by no standard conversion, such as `std::string`, the by-index member is
selected: the call erases the node at index 0.  `zero` is `some z` in the first
case, with `z` the element the literal denotes, and `none` in the second.  (For
the other element types that `int` converts to by a standard conversion the
call is ambiguous and `destroy_list` does not compile.) -/
def erase_zero {T : Type} [BEq T] (zero : Option T) (h : Heap T) (l : LList) :
    Outcome T Unit :=
  match zero with
  | none => erase_index h l 0
  | some z => erase h l z

/-- Loop of `destroy_list`: `while (!empty()) erase(0);` (see `erase_zero` for
`zero`).  An `erase(0)` that returns either decrements `num_nodes` or changes
nothing at all, so a loop that has not emptied the list after `num_nodes`
rounds never ends. -/
def destroy_loop {T : Type} [BEq T] (zero : Option T) :
    Nat → Heap T → LList → Outcome T Unit
  | fuel, h, l =>
    if l.empty then .ok () h l
    else
      match fuel with
      | 0 => .diverges
      | fuel + 1 =>
        match erase_zero zero h l with
        | .ok _ h1 l1 => destroy_loop zero fuel h1 l1
        | .out_of_range h0 l0 => .out_of_range h0 l0
        | .undefined => .undefined
        | .diverges => .diverges

/-- Member `destroy_list` (see `erase_zero` for `zero`). -/
def destroy_list {T : Type} [BEq T] (zero : Option T) (h : Heap T) (l : LList) :
    Outcome T Unit :=
  destroy_loop zero l.num_nodes h l

/-- Member `operator=` run on the list object `l` with right-hand side `rhs`;
`same` is the outcome of the identity test `this != &rhs` (true when both
names denote one object); see `erase_zero` for `zero`. -/
def assign {T : Type} [BEq T] (zero : Option T) (h : Heap T) (l rhs : LList)
    (same : Bool) : Outcome T Unit :=
  if same then .ok () h l
  else
    match destroy_list zero h l with
    | .ok _ h1 l1 => copy_nodes h1 l1 rhs
    | .out_of_range h0 l0 => .out_of_range h0 l0
    | .undefined => .undefined
    | .diverges => .diverges

/-- Loop of `operator<<`: for each node, its data, then `", "` when
`node->next != 0` (`fuel` as in `erase_loop`). -/
def render_loop {T : Type} (show_data : T → String) (h : Heap T) :
    Nat → Option Nat → Except Fault String
  | _, none => .ok ""
  | 0, some _ => .error .diverges
  | fuel + 1, some a =>
    match h.deref (some a) with
    | none => .error .undefined
    | some n =>
      match render_loop show_data h fuel n.next with
      | .error f => .error f
      | .ok rest => .ok (show_data n.data ++ (if n.next ≠ none then ", " else "") ++ rest)

/-- Free function `operator<<` on a list: the text written to the stream;
`show_data` is `operator<<` on the element type. -/
def render {T : Type} (show_data : T → String) (h : Heap T) (l : LList) :
    Except Fault String :=
  match render_loop show_data h (h.length + 1) l.head with
  | .error f => .error f
  | .ok body => .ok ("< " ++ body ++ " >")

/-- The first-to-last element sequence: the data met by the traversal
`for (node = head; node != 0; node = node->next)` that `operator<<`, `find`
and `copy_nodes` all use (`fuel` as in `erase_loop`). -/
def elements_loop {T : Type} (h : Heap T) : Nat → Option Nat → Except Fault (List T)
  | _, none => .ok []
  | 0, some _ => .error .diverges
  | fuel + 1, some a =>
    match h.deref (some a) with
    | none => .error .undefined
    | some n =>
      match elements_loop h fuel n.next with
      | .error f => .error f
      | .ok rest => .ok (n.data :: rest)

/-- Element sequence of the list `l` in heap `h` (see `elements_loop`). -/
def elements {T : Type} (h : Heap T) (l : LList) : Except Fault (List T) :=
  elements_loop h (h.length + 1) l.head

/-- Run `k` on the heap and list object a call returned; `none` when the call
did not return normally. -/
def Outcome.next {T α β : Type} (o : Outcome T α) (k : Heap T → LList → Option β) :
    Option β :=
  match o with
  | .ok _ h l => k h l
  | _ => none

/-- Lines 18 to 24 of `main`: `str_list` is built by `insert(0, "Hello")`,
`push_back("There")`, `push_back("World")`.  Gives the heap and `str_list`. -/
def main_str_list : Option (Heap String × LList) :=
  (insert [] LList.new 0 "Hello").next fun h str_list =>
  (push_back h str_list "There").next fun h str_list =>
  (push_back h str_list "World").next fun h str_list =>
  some (h, str_list)

/-- Lines 18 to 34 of `main`: after `main_str_list`, `list_cpy` is copy
constructed from `str_list`, and then `erase("There")`, `push_front("Wow!")`
and `insert(1, "Super...")` run on `list_cpy`.  Gives the heap, `str_list` and
`list_cpy`. -/
def main_lists : Option (Heap String × LList × LList) :=
  main_str_list.bind fun (h, str_list) =>
  (copy_construct h str_list).next fun h list_cpy =>
  (erase h list_cpy "There").next fun h list_cpy =>
  (push_front h list_cpy "Wow!").next fun h list_cpy =>
  (insert h list_cpy 1 "Super...").next fun h list_cpy =>
  some (h, str_list, list_cpy)

/-! ## Concrete lists used as test inputs -/

/-- Heap after `push_back(10)` on an empty list in an empty heap. -/
def one_heap : Heap Nat := [some ⟨10, none, none⟩]

/-- List object after `push_back(10)`. -/
def one_list : LList := ⟨some 0, some 0, 1⟩

/-- Heap after `push_back(10)`, `push_back(20)`. -/
def two_heap : Heap Nat := [some ⟨10, none, some 1⟩, some ⟨20, some 0, none⟩]

/-- List object after `push_back(10)`, `push_back(20)`. -/
def two_list : LList := ⟨some 0, some 1, 2⟩

/-- Heap after `push_back(10)`, `push_back(20)`, `push_back(30)`. -/
def three_heap : Heap Nat :=
  [some ⟨10, none, some 1⟩, some ⟨20, some 0, some 2⟩, some ⟨30, some 1, none⟩]

/-- List object after `push_back(10)`, `push_back(20)`, `push_back(30)`. -/
def three_list : LList := ⟨some 0, some 2, 3⟩

/-- Heap after `push_back(1)`, `push_front(2)`, `erase(1)` (by index): the
node holding 2 is still allocated but no longer reachable. -/
def lost_heap : Heap Nat := [none, some ⟨2, none, some 0⟩]

/-- List object after `push_back(1)`, `push_front(2)`, `erase(1)` (by index):
both ends null, one node counted. -/
def lost_list : LList := ⟨none, none, 1⟩

/-- Heap of two `List<int>` objects: nodes 0, 1, 2 after `push_back(10)`,
`push_back(20)`, `push_back(30)` on one, node 3 after `push_back(7)` on the
other. -/
def int_heap : Heap Int :=
  [some ⟨10, none, some 1⟩, some ⟨20, some 0, some 2⟩, some ⟨30, some 1, none⟩,
   some ⟨7, none, none⟩]

/-- The `List<int>` object holding 10, 20, 30 in `int_heap`. -/
def int_list : LList := ⟨some 0, some 2, 3⟩

/-- The `List<int>` object holding 7 in `int_heap`. -/
def int_other : LList := ⟨some 3, some 3, 1⟩

/-- Heap of `main` after line 24. -/
def str_heap : Heap String :=
  [some ⟨"Hello", none, some 1⟩, some ⟨"There", some 0, some 2⟩,
   some ⟨"World", some 1, none⟩]

/-- The list object `str_list` of `main` after line 24. -/
def str_list : LList := ⟨some 0, some 2, 3⟩

/-! ## Sequences of calls made by a caller -/

/-- One call of a public mutator. -/
inductive Call (T : Type) where
  | push_front (data : T)
  | push_back (data : T)
  | insert (index : Nat) (data : T)
  | erase (data : T)
  | erase_index (index : Nat)
  deriving DecidableEq, Repr

/-- Run one call on the list object `l`. -/
def Call.run {T : Type} [BEq T] (c : Call T) (h : Heap T) (l : LList) : Outcome T Unit :=
  match c with
  | .push_front data => rcd.push_front h l data
  | .push_back data => rcd.push_back h l data
  | .insert index data => rcd.insert h l index data
  | .erase data => rcd.erase h l data
  | .erase_index index => rcd.erase_index h l index

/-- Is the call one of `push_front`, `push_back`, `insert`. -/
def Call.inserts {T : Type} (c : Call T) : Bool :=
  match c with
  | .push_front _ => true
  | .push_back _ => true
  | .insert _ _ => true
  | .erase _ => false
  | .erase_index _ => false

/-- Is the call one of `push_front`, `push_back`. -/
def Call.pushes {T : Type} (c : Call T) : Bool :=
  match c with
  | .push_front _ => true
  | .push_back _ => true
  | .insert _ _ => false
  | .erase _ => false
  | .erase_index _ => false

/-- Run a finite sequence of calls on one list object, first to last.  A call
that throws `std::out_of_range` is caught by the caller, which goes on with the
state at the throw; undefined behaviour or a loop that never ends stops the
run. -/
def run_calls {T : Type} [BEq T] : List (Call T) → Heap T → LList → Outcome T Unit
  | [], h, l => .ok () h l
  | c :: cs, h, l =>
    match c.run h l with
    | .ok _ h1 l1 => run_calls cs h1 l1
    | .out_of_range h1 l1 => run_calls cs h1 l1
    | .undefined => .undefined
    | .diverges => .diverges

/-- Number of live nodes in the heap. -/
def live_nodes {T : Type} (h : Heap T) : Nat := h.countP Option.isSome

/-- Over a run of `run_calls`: the number of `push_front`, `push_back` and
`insert` calls that returned without an error, and the number of `erase` calls
after which the heap holds fewer live nodes than before (calls that removed a
node). -/
def tally {T : Type} [BEq T] : List (Call T) → Heap T → LList → Nat × Nat
  | [], _, _ => (0, 0)
  | c :: cs, h, l =>
    match c.run h l with
    | .ok _ h1 l1 =>
      ((tally cs h1 l1).1 + (if c.inserts then 1 else 0),
       (tally cs h1 l1).2 + (if live_nodes h1 < live_nodes h then 1 else 0))
    | .out_of_range h1 l1 => tally cs h1 l1
    | .undefined => (0, 0)
    | .diverges => (0, 0)

/-- The pointer `p` is null or an address not below `k`. -/
def PtrGe (k : Nat) (p : Option Nat) : Prop := ∀ a, p = some a → k ≤ a

/-- No live node at an address from `k` on points below `k`. -/
def Closed {T : Type} (k : Nat) (h : Heap T) : Prop :=
  ∀ a n, k ≤ a → h.deref (some a) = some n → PtrGe k n.prev ∧ PtrGe k n.next

/-- The list `l` lives above the heap `h0`: the heap `h` extends `h0` without
changing it, and neither `l` nor any node allocated after `h0` points into
`h0`; `num_nodes` is at least the number of nodes allocated after `h0` and
still live. -/
def Above {T : Type} (h0 h : Heap T) (l : LList) : Prop :=
  h.take h0.length = h0 ∧ PtrGe h0.length l.head ∧ PtrGe h0.length l.tail ∧
    Closed h0.length h ∧ live_nodes h ≤ l.num_nodes + live_nodes h0

/-- The renderings `e1`, ..., `en` joined by `", "`, with no separator after
the last one. -/
def joined : List String → String
  | [] => ""
  | [a] => a
  | a :: b :: rest => a ++ ", " ++ joined (b :: rest)

/-! ## The data-model invariants -/

/-- Address of the first cell of a chain, `q` when the chain has no cell. -/
def first_addr {T : Type} (cells : List (Nat × T)) (q : Option Nat) : Option Nat :=
  match cells with
  | [] => q
  | c :: _ => some c.1

/-- Address of the last cell of a chain, `p` when the chain has no cell. -/
def last_addr {T : Type} : List (Nat × T) → Option Nat → Option Nat
  | [], p => p
  | c :: rest, _ => last_addr rest (some c.1)

/-- Forward chain: every cell `(a, x)` is a live node at address `a` holding
`x` whose `next` is the address of the cell after it, `q` for the last cell. -/
def Seg {T : Type} (h : Heap T) : List (Nat × T) → Option Nat → Prop
  | [], _ => True
  | c :: rest, q =>
    (∃ n, h.deref (some c.1) = some n ∧ n.data = c.2 ∧ n.next = first_addr rest q)
      ∧ Seg h rest q

/-- Doubly linked chain: a forward chain in which, in addition, the `prev` of
every cell is the address of the cell before it, `pv` for the first cell. -/
def DSeg {T : Type} (h : Heap T) : Option Nat → List (Nat × T) → Option Nat → Prop
  | _, [], _ => True
  | pv, c :: rest, q =>
    h.deref (some c.1) = some { data := c.2, prev := pv, next := first_addr rest q }
      ∧ DSeg h (some c.1) rest q

/-- The list `l` reaches exactly the cells `cells` from `head` by `next`
links, ending at a node with no successor. -/
def Chain {T : Type} (h : Heap T) (l : LList) (cells : List (Nat × T)) : Prop :=
  l.head = first_addr cells none ∧ Seg h cells none

/-- The data-model invariants of a list `l` whose nodes are, first to last,
`cells` (address and data): `head` is the first node and has no predecessor,
`tail` is the last node and has no successor, `next` and `prev` links mirror
each other along the chain, no node occurs twice, and `num_nodes` is the number
of nodes (so it is zero exactly when `head` and `tail` are both null). -/
def WellFormed {T : Type} (h : Heap T) (l : LList) (cells : List (Nat × T)) : Prop :=
  l.head = first_addr cells none ∧ l.tail = last_addr cells none ∧
    l.num_nodes = cells.length ∧ (cells.map Prod.fst).Nodup ∧ DSeg h none cells none

end rcd


namespace rcd

/-! ## Heap lemmas -/

theorem deref_lt {T : Type} {h : Heap T} {a : Nat} {n : Node T}
    (hd : h.deref (some a) = some n) : a < h.length := by
  by_contra hlt
  have : h[a]? = none := List.getElem?_eq_none (by omega)
  simp [Heap.deref, this] at hd

theorem deref_alloc_fresh {T : Type} (h : Heap T) (n : Node T) :
    (h.alloc n).deref (some h.length) = some n := by
  simp [Heap.deref, Heap.alloc]

theorem deref_alloc_of_lt {T : Type} (h : Heap T) (n : Node T) {a : Nat}
    (ha : a < h.length) : (h.alloc n).deref (some a) = h.deref (some a) := by
  simp [Heap.deref, Heap.alloc, List.getElem?_append_left ha]

theorem deref_alloc_old {T : Type} (h : Heap T) (n : Node T) {a : Nat} {m : Node T}
    (hd : h.deref (some a) = some m) : (h.alloc n).deref (some a) = some m := by
  rw [deref_alloc_of_lt h n (deref_lt hd), hd]

theorem deref_set_ne {T : Type} (h : Heap T) {a b : Nat} (v : Option (Node T))
    (hab : a ≠ b) : Heap.deref (h.set a v) (some b) = h.deref (some b) := by
  simp [Heap.deref, List.getElem?_set_ne hab]

theorem deref_set_eq {T : Type} (h : Heap T) {a : Nat} (v : Option (Node T))
    (ha : a < h.length) : Heap.deref (h.set a v) (some a) = v := by
  simp [Heap.deref, List.getElem?_set_self, ha]

theorem set_next_eq {T : Type} {h : Heap T} {a : Nat} {n : Node T} (q : Option Nat)
    (hd : h.deref (some a) = some n) :
    h.set_next (some a) q = some (h.set a (some { n with next := q })) := by
  simp [Heap.set_next, hd]

theorem set_prev_eq {T : Type} {h : Heap T} {a : Nat} {n : Node T} (q : Option Nat)
    (hd : h.deref (some a) = some n) :
    h.set_prev (some a) q = some (h.set a (some { n with prev := q })) := by
  simp [Heap.set_prev, hd]

/-! ## Chains -/

@[simp] theorem first_addr_nil {T : Type} (q : Option Nat) :
    first_addr ([] : List (Nat × T)) q = q := rfl

@[simp] theorem first_addr_cons {T : Type} (c : Nat × T) (rest : List (Nat × T))
    (q : Option Nat) : first_addr (c :: rest) q = some c.1 := rfl

@[simp] theorem last_addr_nil {T : Type} (p : Option Nat) :
    last_addr ([] : List (Nat × T)) p = p := rfl

@[simp] theorem last_addr_cons {T : Type} (c : Nat × T) (rest : List (Nat × T))
    (p : Option Nat) : last_addr (c :: rest) p = last_addr rest (some c.1) := rfl

theorem first_addr_append {T : Type} (c1 c2 : List (Nat × T)) (q : Option Nat) :
    first_addr (c1 ++ c2) q = first_addr c1 (first_addr c2 q) := by
  cases c1 <;> rfl

theorem last_addr_append {T : Type} (c1 c2 : List (Nat × T)) (p : Option Nat) :
    last_addr (c1 ++ c2) p = last_addr c2 (last_addr c1 p) := by
  induction c1 generalizing p with
  | nil => rfl
  | cons c rest ih => simp [last_addr, ih]

theorem seg_frame {T : Type} {h h1 : Heap T} {cells : List (Nat × T)} {q : Option Nat}
    (hf : ∀ c ∈ cells, h1.deref (some c.1) = h.deref (some c.1))
    (hs : Seg h cells q) : Seg h1 cells q := by
  induction cells with
  | nil => trivial
  | cons c rest ih =>
    obtain ⟨hc, hr⟩ := hs
    refine ⟨?_, ih (fun d hd => hf d (List.mem_cons_of_mem _ hd)) hr⟩
    rw [hf c (List.mem_cons_self _ _)]
    exact hc

theorem dseg_frame {T : Type} {h h1 : Heap T} {cells : List (Nat × T)}
    {pv q : Option Nat}
    (hf : ∀ c ∈ cells, h1.deref (some c.1) = h.deref (some c.1))
    (hs : DSeg h pv cells q) : DSeg h1 pv cells q := by
  induction cells generalizing pv with
  | nil => trivial
  | cons c rest ih =>
    obtain ⟨hc, hr⟩ := hs
    refine ⟨?_, ih (fun d hd => hf d (List.mem_cons_of_mem _ hd)) hr⟩
    rw [hf c (List.mem_cons_self _ _)]
    exact hc

theorem dseg_seg {T : Type} {h : Heap T} {cells : List (Nat × T)} {pv q : Option Nat}
    (hs : DSeg h pv cells q) : Seg h cells q := by
  induction cells generalizing pv with
  | nil => trivial
  | cons c rest ih => exact ⟨⟨_, hs.1, rfl, rfl⟩, ih hs.2⟩

theorem seg_append {T : Type} {h : Heap T} {c1 c2 : List (Nat × T)} {q : Option Nat} :
    Seg h (c1 ++ c2) q ↔ Seg h c1 (first_addr c2 q) ∧ Seg h c2 q := by
  induction c1 with
  | nil => simp [Seg]
  | cons c rest ih =>
    simp only [List.cons_append, Seg, List.append_eq, ih, first_addr_append]
    tauto

theorem dseg_append {T : Type} {h : Heap T} {c1 c2 : List (Nat × T)}
    {pv q : Option Nat} :
    DSeg h pv (c1 ++ c2) q ↔
      DSeg h pv c1 (first_addr c2 q) ∧ DSeg h (last_addr c1 pv) c2 q := by
  induction c1 generalizing pv with
  | nil => simp [DSeg, last_addr]
  | cons c rest ih =>
    simp only [List.cons_append, DSeg, List.append_eq, ih, first_addr_append, last_addr]
    tauto

theorem seg_addr_lt {T : Type} {h : Heap T} {cells : List (Nat × T)} {q : Option Nat}
    (hs : Seg h cells q) : ∀ c ∈ cells, c.1 < h.length := by
  induction cells with
  | nil => simp
  | cons c rest ih =>
    obtain ⟨⟨n, hn, -, -⟩, hr⟩ := hs
    intro d hd
    rcases List.mem_cons.1 hd with rfl | hd
    · exact deref_lt hn
    · exact ih hr d hd

theorem nodup_length_le {T : Type} {cells : List (Nat × T)} {n : Nat}
    (hn : (cells.map Prod.fst).Nodup) (hlt : ∀ c ∈ cells, c.1 < n) :
    cells.length ≤ n := by
  have hsub : cells.map Prod.fst ⊆ List.range n := by
    intro a ha
    obtain ⟨c, hc, rfl⟩ := List.mem_map.1 ha
    exact List.mem_range.2 (hlt c hc)
  have := (List.subperm_of_subset hn hsub).length_le
  simpa using this

theorem wf_chain {T : Type} {h : Heap T} {l : LList} {cells : List (Nat × T)}
    (hw : WellFormed h l cells) : Chain h l cells :=
  ⟨hw.1, dseg_seg hw.2.2.2.2⟩

theorem wf_length_le {T : Type} {h : Heap T} {l : LList} {cells : List (Nat × T)}
    (hw : WellFormed h l cells) : cells.length ≤ h.length :=
  nodup_length_le hw.2.2.2.1 (seg_addr_lt (dseg_seg hw.2.2.2.2))

/-! ## The read-only loops on a chain -/

theorem seek_seg {T : Type} {h : Heap T} {cells : List (Nat × T)}
    (hs : Seg h cells none) (i : Nat) :
    seek h i (first_addr cells none) = some (first_addr (cells.drop i) none) := by
  induction i generalizing cells with
  | zero => cases cells <;> simp [seek, first_addr]
  | succ i ih =>
    cases cells with
    | nil => simp [seek, first_addr]
    | cons c rest =>
      obtain ⟨⟨n, hn, -, hnx⟩, hr⟩ := hs
      simp only [first_addr, seek, hn, hnx, List.drop_succ_cons]
      exact ih hr

theorem at_loop_seg {T : Type} {h : Heap T} {cells : List (Nat × T)} {q : Option Nat}
    (hs : Seg h cells q) (i : Nat) (hi : i ≤ cells.length) :
    at_loop h i (first_addr cells q) = some (first_addr (cells.drop i) q) := by
  induction i generalizing cells with
  | zero => simp [at_loop]
  | succ i ih =>
    cases cells with
    | nil => simp at hi
    | cons c rest =>
      obtain ⟨⟨n, hn, -, hnx⟩, hr⟩ := hs
      simp only [first_addr, at_loop, hn, hnx, List.drop_succ_cons]
      exact ih hr (by simpa using hi)

theorem find_loop_seg {T : Type} [BEq T] {h : Heap T} {cells : List (Nat × T)}
    (hs : Seg h cells none) (v : T) (fuel : Nat) (hf : cells.length ≤ fuel) :
    find_loop h v fuel (first_addr cells none) = .ok (cells.any fun c => c.2 == v) := by
  induction cells generalizing fuel with
  | nil => cases fuel <;> simp [find_loop, first_addr]
  | cons c rest ih =>
    obtain ⟨⟨n, hn, hdat, hnx⟩, hr⟩ := hs
    cases fuel with
    | zero => simp at hf
    | succ fuel =>
      simp only [first_addr, find_loop, hn, hdat, hnx, List.any_cons]
      cases hcv : c.2 == v
      · simpa using ih hr fuel (by simpa using hf)
      · simp

theorem erase_loop_seg {T : Type} [BEq T] {h : Heap T} {cells : List (Nat × T)}
    (hs : Seg h cells none) (v : T) (fuel : Nat) (hf : cells.length ≤ fuel) :
    erase_loop h v fuel (first_addr cells none) =
      .ok (first_addr (cells.dropWhile fun c => !(c.2 == v)) none) := by
  induction cells generalizing fuel with
  | nil => cases fuel <;> simp [erase_loop, first_addr]
  | cons c rest ih =>
    obtain ⟨⟨n, hn, hdat, hnx⟩, hr⟩ := hs
    cases fuel with
    | zero => simp at hf
    | succ fuel =>
      simp only [first_addr, erase_loop, hn, hdat, hnx, List.dropWhile_cons]
      cases hcv : c.2 == v
      · simpa using ih hr fuel (by simpa using hf)
      · simp [first_addr]

theorem elements_loop_seg {T : Type} {h : Heap T} {cells : List (Nat × T)}
    (hs : Seg h cells none) (fuel : Nat) (hf : cells.length ≤ fuel) :
    elements_loop h fuel (first_addr cells none) = .ok (cells.map Prod.snd) := by
  induction cells generalizing fuel with
  | nil => cases fuel <;> simp [elements_loop, first_addr]
  | cons c rest ih =>
    obtain ⟨⟨n, hn, hdat, hnx⟩, hr⟩ := hs
    cases fuel with
    | zero => simp at hf
    | succ fuel =>
      simp only [first_addr_cons, elements_loop, hn, hnx, List.map_cons]
      rw [ih hr fuel (by simpa using hf), hdat]

/-! ## Indexed read -/

theorem check_range_ok {T : Type} (h : Heap T) (l : LList) {i : Nat}
    (hi : i < l.num_nodes) : check_range h l i = .ok () h l := by
  have hrange : ¬ (i < 0 ∨ i ≥ l.num_nodes) := by omega
  simp only [check_range, hrange, if_false]

theorem check_range_fail {T : Type} (h : Heap T) (l : LList) {i : Nat}
    (hi : l.num_nodes ≤ i) : check_range h l i = .out_of_range h l := by
  have hrange : i < 0 ∨ i ≥ l.num_nodes := Or.inr hi
  simp only [check_range, hrange, if_true]

theorem seg_drop {T : Type} {h : Heap T} {cells : List (Nat × T)} {q : Option Nat}
    (hs : Seg h cells q) (i : Nat) : Seg h (cells.drop i) q := by
  have := hs
  rw [← List.take_append_drop i cells, seg_append] at this
  exact this.2

theorem at_index_chain {T : Type} {h : Heap T} {l : LList} {cells : List (Nat × T)}
    (hc : Chain h l cells) (hn : l.num_nodes = cells.length) {i : Nat} {x : Nat × T}
    (hx : cells[i]? = some x) : at_index h l i = .ok x.2 h l := by
  obtain ⟨hi, rfl⟩ := List.getElem?_eq_some_iff.1 hx
  have hdrop : cells.drop i = cells[i] :: cells.drop (i + 1) := List.drop_eq_getElem_cons hi
  have hseg := seg_drop hc.2 i
  rw [hdrop] at hseg
  obtain ⟨⟨n, hnd, hdat, -⟩, -⟩ := hseg
  simp only [at_index, check_range_ok h l (hn ▸ hi), hc.1,
    at_loop_seg hc.2 i (Nat.le_of_lt hi), hdrop, first_addr_cons, Option.some_bind, hnd, hdat]

theorem at_index_out_of_range {T : Type} (h : Heap T) (l : LList) {i : Nat}
    (hi : l.num_nodes ≤ i) : at_index h l i = .out_of_range h l := by
  simp only [at_index, check_range_fail h l hi]

/-! ## Insertion -/

theorem empty_iff (l : LList) : l.empty = true ↔ l.num_nodes = 0 := by
  simp [LList.empty]

theorem seg_alloc {T : Type} {h : Heap T} {cells : List (Nat × T)} {q : Option Nat}
    (n : Node T) (hs : Seg h cells q) : Seg (h.alloc n) cells q :=
  seg_frame (fun c hc => deref_alloc_of_lt h n (seg_addr_lt hs c hc)) hs

/-- Split of a chain around the cell at an inner position. -/
theorem split_inner {T : Type} (cells : List (Nat × T)) (i : Nat)
    (h0 : 0 < i) (h1 : i + 1 < cells.length) :
    ∃ pre pc c sc post, cells = pre ++ pc :: c :: sc :: post ∧ pre.length + 1 = i := by
  refine ⟨cells.take (i - 1), cells[i - 1], cells[i], cells[i + 1], cells.drop (i + 2),
    ?_, ?_⟩
  · have e1 := List.drop_eq_getElem_cons (show i - 1 < cells.length by omega)
    have e2 := List.drop_eq_getElem_cons (show i < cells.length by omega)
    have e3 := List.drop_eq_getElem_cons h1
    rw [show i - 1 + 1 = i by omega] at e1
    rw [← e3, ← e2, ← e1, List.take_append_drop]
  · rw [List.length_take]; omega

theorem insert_empty {T : Type} (h : Heap T) (l : LList) (v : T)
    (hn : l.num_nodes = 0) :
    insert h l 0 v = .ok () (h.alloc { data := v, prev := none, next := none })
      { head := some h.length, tail := some h.length, num_nodes := l.num_nodes + 1 } := by
  simp [insert, LList.empty, hn, Heap.fresh]

theorem insert_front {T : Type} {h : Heap T} {l : LList} {c : Node T} {a : Nat} (v : T)
    (hn : l.num_nodes ≠ 0) (hh : l.head = some a) (hd : h.deref (some a) = some c)
    (hp : c.prev = none) :
    insert h l 0 v = .ok () (h.alloc { data := v, prev := none, next := l.head })
      { l with head := some h.length, num_nodes := l.num_nodes + 1 } := by
  have he : l.empty = false := by simp [LList.empty, hn]
  simp only [insert, he, Bool.false_and, check_range_ok h l (Nat.pos_of_ne_zero hn), hh,
    seek, hd, hp, if_true, Heap.fresh]
  simp

theorem insert_middle {T : Type} {h : Heap T} {l : LList} {c pn : Node T} {a pa : Nat}
    (index : Nat) (v : T) (hidx : index < l.num_nodes)
    (hseek : seek h index l.head = some (some a)) (hd : h.deref (some a) = some c)
    (hp : c.prev = some pa) (hnx : c.next ≠ none) (hpd : h.deref (some pa) = some pn) :
    insert h l index v = .ok ()
      ((h.alloc ⟨v, some pa, some a⟩).set pa (some ⟨pn.data, pn.prev, some h.length⟩))
      { l with num_nodes := l.num_nodes + 1 } := by
  have he : l.empty = false := by simp [LList.empty]; omega
  simp only [insert, he, Bool.false_and, check_range_ok h l hidx, hseek, hd, hp, hnx,
    Heap.fresh, set_next_eq _ (deref_alloc_old h _ hpd)]
  simp

theorem insert_chain {T : Type} {h : Heap T} {l : LList} {cells : List (Nat × T)}
    (hw : WellFormed h l cells) (index : Nat) (v : T)
    (hi : index = 0 ∨ index + 1 < cells.length) :
    ∃ h1 l1, insert h l index v = .ok () h1 l1 ∧
      Chain h1 l1 (cells.take index ++ (h.length, v) :: cells.drop index) ∧
      l1.num_nodes = cells.length + 1 := by
  obtain ⟨hhead, htail, hnum, hnd, hds⟩ := hw
  rcases Nat.eq_zero_or_pos index with rfl | hpos
  · cases cells with
    | nil =>
      refine ⟨_, _, insert_empty h l v hnum, ⟨rfl, ?_, trivial⟩, by simp [hnum]⟩
      exact ⟨_, deref_alloc_fresh h _, rfl, rfl⟩
    | cons c rest =>
      have hn0 : l.num_nodes ≠ 0 := by simp [hnum]
      refine ⟨_, _, insert_front v hn0 hhead hds.1 rfl, ⟨rfl, ?_, ?_⟩, by simp [hnum]⟩
      · exact ⟨_, deref_alloc_fresh h _, rfl, by simp [hhead]⟩
      · exact seg_alloc _ (dseg_seg hds)
  · have hlt : index + 1 < cells.length := by omega
    obtain ⟨pre, pc, c, sc, post, rfl, hlen⟩ := split_inner cells index hpos hlt
    have hd2 := (dseg_append.1 hds).2
    obtain ⟨hpc, hc, hrest⟩ := hd2
    have hseg := dseg_seg hds
    have hlts := seg_addr_lt hseg
    simp only [List.map_append, List.map_cons, List.nodup_append, List.nodup_cons,
      List.mem_cons, List.mem_map, not_or, List.disjoint_cons_right] at hnd
    have hseek : seek h index l.head = some (some c.1) := by
      rw [hhead, seek_seg hseg, ← hlen]
      simp
    have hpclt : pc.1 < h.length := deref_lt hpc
    have htake : (pre ++ pc :: c :: sc :: post).take index = pre ++ [pc] := by
      rw [← hlen, List.take_append_eq_append_take]; simp
    have hdrop : (pre ++ pc :: c :: sc :: post).drop index = c :: sc :: post := by
      rw [← hlen, List.drop_append_eq_append_drop]; simp
    refine ⟨_, _, insert_middle index v (by omega) hseek hc rfl (by simp) hpc, ⟨?_, ?_⟩, ?_⟩
    · simp [hhead, first_addr_append, htake]
    · rw [htake, hdrop]
      have hframe : ∀ a, a ≠ pc.1 → a < h.length → ∀ X, Heap.deref
          ((h.alloc ⟨v, some pc.1, some c.1⟩).set pc.1 X) (some a) = h.deref (some a) := by
        intro a hne hlt X
        rw [deref_set_ne _ _ (Ne.symm hne), deref_alloc_of_lt _ _ hlt]
      obtain ⟨hs1, -, hs2⟩ := seg_append.1 hseg
      rw [List.append_assoc, seg_append]
      refine ⟨seg_frame (fun d hd => ?_) hs1, ⟨⟨_, deref_set_eq _ _ ?_, rfl, rfl⟩, ?_, ?_⟩⟩
      · refine hframe d.1 (fun he => hnd.2.2.1 ⟨d, hd, he⟩) (hlts d (by simp [hd])) _
      · simp [Heap.alloc]; omega
      · refine ⟨⟨v, some pc.1, some c.1⟩, ?_, rfl, rfl⟩
        rw [deref_set_ne _ _ (Nat.ne_of_lt hpclt), deref_alloc_fresh]
      · refine seg_frame (fun d hd => ?_) hs2
        refine hframe d.1 (fun he => ?_) (hlts d (List.mem_append_right _ (List.mem_cons_of_mem _ hd))) _
        rcases List.mem_cons.1 hd with rfl | hd
        · exact hnd.2.1.1.1 he.symm
        · rcases List.mem_cons.1 hd with rfl | hd
          · exact hnd.2.1.1.2.1 he.symm
          · exact hnd.2.1.1.2.2 ⟨d, hd, he⟩
    · simp [hnum]

/-! ## Pushing at either end -/

theorem first_addr_some_ne_none {T : Type} (cells : List (Nat × T)) (x : Nat) :
    first_addr cells (some x) ≠ none := by
  cases cells <;> simp

theorem seg_next_ne_none {T : Type} {h : Heap T} {cells : List (Nat × T)} {x : Nat}
    (hs : Seg h cells (some x)) :
    ∀ d ∈ cells, ∀ n, h.deref (some d.1) = some n → n.next ≠ none := by
  induction cells with
  | nil => simp
  | cons c rest ih =>
    obtain ⟨⟨m, hm, -, hnx⟩, hr⟩ := hs
    intro d hd n hn
    rcases List.mem_cons.1 hd with rfl | hd
    · rw [hm] at hn
      cases hn
      rw [hnx]
      exact first_addr_some_ne_none rest x
    · exact ih hr d hd n hn

theorem push_front_empty {T : Type} (h : Heap T) (l : LList) (v : T)
    (hn : l.num_nodes = 0) :
    push_front h l v = .ok () (h.alloc ⟨v, none, none⟩)
      ⟨some h.length, some h.length, l.num_nodes + 1⟩ := by
  simp [push_front, LList.empty, hn, Heap.fresh]

theorem push_front_nonempty {T : Type} (h : Heap T) (l : LList) (v : T)
    (hn : l.num_nodes ≠ 0) :
    push_front h l v = .ok () ((h.alloc ⟨v, none, l.head⟩).set h.length
      (some ⟨v, none, l.head⟩)) ⟨some h.length, l.tail, l.num_nodes + 1⟩ := by
  have hset := set_prev_eq none (deref_alloc_fresh h (⟨v, none, l.head⟩ : Node T))
  simp only [push_front, LList.empty, Heap.fresh, hset]
  simp [hn]

theorem push_back_empty {T : Type} (h : Heap T) (l : LList) (v : T)
    (hn : l.num_nodes = 0) :
    push_back h l v = .ok () (h.alloc ⟨v, none, none⟩)
      ⟨some h.length, some h.length, l.num_nodes + 1⟩ := by
  simp [push_back, LList.empty, hn, Heap.fresh]

theorem push_back_nonempty {T : Type} {h : Heap T} {l : LList} {a : Nat} {n : Node T}
    (v : T) (hn : l.num_nodes ≠ 0) (ht : l.tail = some a)
    (hd : h.deref (some a) = some n) :
    push_back h l v = .ok () ((h.alloc ⟨v, some a, none⟩).set a
      (some ⟨n.data, n.prev, some h.length⟩)) ⟨l.head, some h.length, l.num_nodes + 1⟩ := by
  have hset := set_next_eq (some h.length) (deref_alloc_old h (⟨v, some a, none⟩ : Node T) hd)
  simp only [push_back, LList.empty, Heap.fresh, ht, hset]
  simp [hn]

theorem push_front_chain {T : Type} {h : Heap T} {l : LList} {cells : List (Nat × T)}
    (hc : Chain h l cells) (hz : l.num_nodes = 0 ↔ cells = []) (v : T) :
    ∃ h1 l1, push_front h l v = .ok () h1 l1 ∧ Chain h1 l1 ((h.length, v) :: cells) ∧
      l1.num_nodes = l.num_nodes + 1 ∧
      (cells = [] → l1.tail = some h.length) ∧ (cells ≠ [] → l1.tail = l.tail) := by
  by_cases hn : l.num_nodes = 0
  · have hnil := hz.1 hn
    subst hnil
    exact ⟨_, _, push_front_empty h l v hn,
      ⟨rfl, ⟨_, deref_alloc_fresh h _, rfl, rfl⟩, trivial⟩, rfl,
      fun _ => rfl, fun e => absurd rfl e⟩
  · have hne : cells ≠ [] := fun e => hn (hz.2 e)
    refine ⟨_, _, push_front_nonempty h l v hn,
      ⟨rfl, ⟨⟨v, none, l.head⟩, ?_, rfl, hc.1⟩, ?_⟩, rfl, fun e => absurd e hne, fun _ => rfl⟩
    · exact deref_set_eq _ _ (by simp [Heap.alloc])
    · refine seg_frame (fun d hd => ?_) hc.2
      have hlt := seg_addr_lt hc.2 d hd
      rw [deref_set_ne _ _ (Nat.ne_of_gt hlt), deref_alloc_of_lt _ _ hlt]

theorem push_back_chain {T : Type} {h : Heap T} {l : LList} {cells : List (Nat × T)}
    (hc : Chain h l cells) (ht : cells ≠ [] → l.tail = last_addr cells none)
    (hz : l.num_nodes = 0 ↔ cells = []) (v : T) :
    ∃ h1 l1, push_back h l v = .ok () h1 l1 ∧ Chain h1 l1 (cells ++ [(h.length, v)]) ∧
      l1.num_nodes = l.num_nodes + 1 ∧ l1.tail = some h.length := by
  by_cases hn : l.num_nodes = 0
  · have hnil := hz.1 hn
    subst hnil
    exact ⟨_, _, push_back_empty h l v hn,
      ⟨rfl, ⟨_, deref_alloc_fresh h _, rfl, rfl⟩, trivial⟩, rfl, rfl⟩
  · have hne : cells ≠ [] := fun e => hn (hz.2 e)
    rcases List.eq_nil_or_concat cells with e | ⟨pre, lc, e⟩
    · exact absurd e hne
    · rw [List.concat_eq_append] at e
      subst e
      have htl : l.tail = some lc.1 := by rw [ht hne, last_addr_append]; rfl
      obtain ⟨hs1, ⟨n, hnd, hdat, hnx⟩, -⟩ := seg_append.1 hc.2
      have hlt := deref_lt hnd
      refine ⟨_, _, push_back_nonempty v hn htl hnd, ⟨?_, ?_⟩, rfl, rfl⟩
      · simp [hc.1, first_addr_append]
      · rw [seg_append, seg_append]
        refine ⟨⟨seg_frame (fun d hd => ?_) hs1, ⟨_, deref_set_eq _ _ ?_, hdat, rfl⟩, trivial⟩,
          ⟨⟨v, some lc.1, none⟩, ?_, rfl, rfl⟩, trivial⟩
        · have hdlt := seg_addr_lt hs1 d hd
          have hne2 : lc.1 ≠ d.1 := by
            intro he
            rw [he] at hnd
            exact seg_next_ne_none hs1 d hd n hnd hnx
          rw [deref_set_ne _ _ hne2, deref_alloc_of_lt _ _ hdlt]
        · simp [Heap.alloc]; omega
        · rw [deref_set_ne _ _ (Nat.ne_of_lt hlt), deref_alloc_fresh]

/-! ## Erasure -/

theorem dseg_set {T : Type} {h : Heap T} {cells : List (Nat × T)} {pv q : Option Nat}
    (a : Nat) (X : Option (Node T)) (hne : ∀ d ∈ cells, d.1 ≠ a)
    (hs : DSeg h pv cells q) : DSeg (h.set a X) pv cells q :=
  dseg_frame (fun d hd => deref_set_ne h X (Ne.symm (hne d hd))) hs

theorem dec_succ (n : Nat) : dec (n + 1) = n := by
  simp [dec]

theorem inc_of_lt {n : Nat} (hn : n < SIZE_MAX) : inc n = n + 1 := by
  rw [inc, if_neg (Nat.ne_of_lt hn)]

theorem unlink_only {T : Type} {h : Heap T} (l : LList) {a : Nat} {x : T}
    (hd : h.deref (some a) = some ⟨x, none, none⟩) :
    unlink h l a = .ok () (h.free a) ⟨none, none, dec l.num_nodes⟩ := by
  simp [unlink, hd]

theorem unlink_first {T : Type} {h : Heap T} (l : LList) {a sa : Nat} {x : T}
    {sn : Node T} (hd : h.deref (some a) = some ⟨x, none, some sa⟩)
    (hs : h.deref (some sa) = some sn) :
    unlink h l a = .ok () (Heap.free (h.set sa (some ⟨sn.data, none, sn.next⟩)) a)
      ⟨some sa, l.tail, dec l.num_nodes⟩ := by
  simp [unlink, hd, set_prev_eq _ hs]

theorem unlink_last {T : Type} {h : Heap T} (l : LList) {a pa : Nat} {x : T}
    {pn : Node T} (hd : h.deref (some a) = some ⟨x, some pa, none⟩)
    (hp : h.deref (some pa) = some pn) (hne : pa ≠ a) :
    unlink h l a = .ok () (Heap.free (h.set pa (some ⟨pn.data, pn.prev, none⟩)) a)
      ⟨l.head, some pa, dec l.num_nodes⟩ := by
  simp [unlink, hd, set_next_eq _ hp, deref_set_ne _ _ hne]

theorem unlink_inner {T : Type} {h : Heap T} (l : LList) {a pa sa : Nat} {x : T}
    {pn sn : Node T} (hd : h.deref (some a) = some ⟨x, some pa, some sa⟩)
    (hp : h.deref (some pa) = some pn) (hs : h.deref (some sa) = some sn)
    (hpa : pa ≠ a) (hps : pa ≠ sa) :
    unlink h l a = .ok () (Heap.free ((h.set pa (some ⟨pn.data, pn.prev, some sa⟩)).set sa
      (some ⟨sn.data, some pa, sn.next⟩)) a) ⟨l.head, l.tail, dec l.num_nodes⟩ := by
  have hs1 : Heap.deref (h.set pa (some ⟨pn.data, pn.prev, some sa⟩)) (some sa) = some sn := by
    rw [deref_set_ne _ _ hps, hs]
  simp [unlink, hd, set_next_eq _ hp, deref_set_ne _ _ hpa, set_prev_eq _ hs1]

theorem nodup_split {T : Type} {pre post : List (Nat × T)} {c : Nat × T}
    (hn : ((pre ++ c :: post).map Prod.fst).Nodup) :
    (∀ d ∈ pre, d.1 ≠ c.1) ∧ (∀ d ∈ post, d.1 ≠ c.1) ∧
      (∀ d ∈ pre, ∀ e ∈ post, d.1 ≠ e.1) ∧
      (pre.map Prod.fst).Nodup ∧ (post.map Prod.fst).Nodup := by
  rw [List.map_append, List.map_cons, List.nodup_append, List.nodup_cons] at hn
  obtain ⟨h1, ⟨h2, h3⟩, h4⟩ := hn
  refine ⟨?_, ?_, ?_, h1, h3⟩
  · intro d hd he
    exact h4 (List.mem_map_of_mem _ hd) (by rw [he]; exact List.mem_cons_self _ _)
  · intro d hd he
    exact h2 (by rw [← he]; exact List.mem_map_of_mem _ hd)
  · intro d hd e hee he
    exact h4 (List.mem_map_of_mem _ hd)
      (by rw [he]; exact List.mem_cons_of_mem _ (List.mem_map_of_mem _ hee))

theorem nodup_remove {T : Type} {pre post : List (Nat × T)} {c : Nat × T}
    (hn : ((pre ++ c :: post).map Prod.fst).Nodup) : ((pre ++ post).map Prod.fst).Nodup :=
  hn.sublist (((List.Sublist.refl pre).append (List.sublist_cons_self c post)).map _)

theorem unlink_wf {T : Type} {h : Heap T} {l : LList} {pre post : List (Nat × T)}
    {c : Nat × T} (hw : WellFormed h l (pre ++ c :: post)) :
    ∃ h1 l1, unlink h l c.1 = .ok () h1 l1 ∧ WellFormed h1 l1 (pre ++ post) := by
  obtain ⟨hhead, htail, hnum, hnd, hds⟩ := hw
  obtain ⟨hpre, hc, hpost⟩ := dseg_append.1 hds
  have hclt := deref_lt hc
  have hdec : dec l.num_nodes = (pre ++ post).length := by
    rw [hnum]; simp only [List.length_append, List.length_cons]
    rw [← Nat.add_assoc, dec_succ]
  have hnd2 := nodup_remove hnd
  obtain ⟨hprec, hpostc, hcross, hndpre, hndpost⟩ := nodup_split hnd
  rcases List.eq_nil_or_concat pre with e | ⟨pre1, pc, e⟩
  · subst e
    cases post with
    | nil =>
      exact ⟨_, _, unlink_only l hc, rfl, rfl, hdec, hnd2, trivial⟩
    | cons sc post1 =>
      obtain ⟨hsc, hpost1⟩ := hpost
      obtain ⟨-, hps, -, -, -⟩ := @nodup_split T [] _ _ hndpost
      refine ⟨_, _, unlink_first l hc hsc, rfl, ?_, hdec, hnd2, ?_, ?_⟩
      · simpa using htail
      · show Heap.deref (Heap.free (h.set sc.1 _) c.1) (some sc.1) = _
        rw [Heap.free, deref_set_ne _ _ (hpostc sc (List.mem_cons_self _ _)).symm,
          deref_set_eq _ _ (deref_lt hsc)]
      · exact dseg_set _ _ (fun d hd => hpostc d (List.mem_cons_of_mem _ hd))
          (dseg_set _ _ hps hpost1)
  · rw [List.concat_eq_append] at e
    subst e
    obtain ⟨hpre1, hpcd, -⟩ := dseg_append.1 hpre
    obtain ⟨hp1, -, -, -, -⟩ := @nodup_split T _ [] _ hndpre
    have hpcc : pc.1 ≠ c.1 := hprec pc (by simp)
    have hlast : last_addr (pre1 ++ [pc]) none = some pc.1 := by
      rw [last_addr_append]; rfl
    rw [hlast] at hc
    cases post with
    | nil =>
      refine ⟨_, _, unlink_last l hc hpcd hpcc, ?_, ?_, hdec, hnd2, ?_⟩
      · simpa [first_addr_append] using hhead
      · simp [last_addr_append]
      · rw [List.append_nil, dseg_append]
        refine ⟨dseg_set _ _ (fun d hd => hprec d (by simp [hd])) (dseg_set _ _ hp1 hpre1),
          ?_, trivial⟩
        show Heap.deref (Heap.free (h.set pc.1 _) c.1) (some pc.1) = _
        rw [Heap.free, deref_set_ne _ _ hpcc.symm, deref_set_eq _ _ (deref_lt hpcd)]
        rfl
    | cons sc post1 =>
      obtain ⟨hsc, hpost1⟩ := hpost
      obtain ⟨-, hps, -, -, -⟩ := @nodup_split T [] _ _ hndpost
      have hpcsc : pc.1 ≠ sc.1 := hcross pc (by simp) sc (by simp)
      have hscc : sc.1 ≠ c.1 := hpostc sc (by simp)
      refine ⟨_, _, unlink_inner l hc hpcd hsc hpcc hpcsc, ?_, ?_, hdec, hnd2, ?_⟩
      · simpa [first_addr_append] using hhead
      · simpa [last_addr_append] using htail
      · rw [dseg_append, dseg_append]
        refine ⟨⟨?_, ?_, trivial⟩, ?_, ?_⟩
        · exact dseg_set _ _ (fun d hd => hprec d (by simp [hd]))
            (dseg_set _ _ (fun d hd => hcross d (by simp [hd]) sc (by simp))
              (dseg_set _ _ hp1 hpre1))
        · show Heap.deref (Heap.free ((h.set pc.1 _).set sc.1 _) c.1) (some pc.1) = _
          rw [Heap.free, deref_set_ne _ _ hpcc.symm, deref_set_ne _ _ hpcsc.symm,
            deref_set_eq _ _ (deref_lt hpcd)]
          rfl
        · show Heap.deref (Heap.free ((h.set pc.1 _).set sc.1 _) c.1) (some sc.1) = _
          rw [Heap.free, deref_set_ne _ _ hscc.symm, deref_set_eq _ _ (by
            rw [List.length_set]; exact deref_lt hsc), hlast]
        · exact dseg_set _ _ (fun d hd => hpostc d (by simp [hd]))
            (dseg_set _ _ hps
              (dseg_set _ _ (fun d hd => (hcross pc (by simp) d (by simp [hd])).symm) hpost1))

theorem erase_index_wf {T : Type} {h : Heap T} {l : LList} {cells : List (Nat × T)}
    (hw : WellFormed h l cells) {i : Nat} (hi : i < cells.length) :
    ∃ h1 l1, erase_index h l i = .ok () h1 l1 ∧ WellFormed h1 l1 (cells.eraseIdx i) := by
  have hdrop : cells.drop i = cells[i] :: cells.drop (i + 1) := List.drop_eq_getElem_cons hi
  have hsplit : cells = cells.take i ++ cells[i] :: cells.drop (i + 1) := by
    rw [← hdrop, List.take_append_drop]
  have hseek : seek h i l.head = some (some cells[i].1) := by
    rw [hw.1, seek_seg (dseg_seg hw.2.2.2.2), hdrop]; rfl
  have hw2 := hw
  rw [hsplit] at hw2
  obtain ⟨h1, l1, hu, hw1⟩ := unlink_wf hw2
  refine ⟨h1, l1, ?_, ?_⟩
  · simp only [erase_index, check_range_ok h l (hw.2.2.1 ▸ hi), hseek]
    exact hu
  · rw [List.eraseIdx_eq_take_drop_succ]
    exact hw1

theorem erase_wf {T : Type} [BEq T] {h : Heap T} {l : LList} {cells : List (Nat × T)}
    (hw : WellFormed h l cells) (v : T) :
    ∃ h1 l1, erase h l v = .ok () h1 l1 ∧
      WellFormed h1 l1 (cells.takeWhile (fun c => !(c.2 == v)) ++
        (cells.dropWhile (fun c => !(c.2 == v))).tail) ∧
      (cells.dropWhile (fun c => !(c.2 == v)) = [] → h1 = h ∧ l1 = l) := by
  have hloop := erase_loop_seg (dseg_seg hw.2.2.2.2) v (h.length + 1)
    (Nat.le_succ_of_le (wf_length_le hw))
  have hsplit := (List.takeWhile_append_dropWhile (fun c => !(c.2 == v)) cells).symm
  cases hdw : cells.dropWhile (fun c => !(c.2 == v)) with
  | nil =>
    rw [hdw] at hloop hsplit
    refine ⟨h, l, ?_, ?_, fun _ => ⟨rfl, rfl⟩⟩
    · simp only [erase, hw.1, hloop, first_addr_nil]
    · rw [List.append_nil] at hsplit
      rw [List.tail_nil, List.append_nil, ← hsplit]
      exact hw
  | cons c post =>
    rw [hdw] at hloop hsplit
    have hw2 := hw
    rw [hsplit] at hw2
    obtain ⟨h1, l1, hu, hw1⟩ := unlink_wf hw2
    refine ⟨h1, l1, ?_, hw1, fun e => by cases e⟩
    simp only [erase, hw.1, hloop, first_addr_cons]
    exact hu

theorem erase_cells_map {T : Type} [BEq T] (cells : List (Nat × T)) (v : T) :
    (cells.takeWhile (fun c => !(c.2 == v)) ++
      (cells.dropWhile (fun c => !(c.2 == v))).tail).map Prod.snd =
      (cells.map Prod.snd).erase v := by
  induction cells with
  | nil => simp
  | cons c rest ih =>
    rw [List.map_cons, List.erase_cons, List.takeWhile_cons, List.dropWhile_cons]
    cases hcv : c.2 == v
    · simpa using ih
    · simp

theorem dropWhile_eq_nil_iff_any {T : Type} [BEq T] (cells : List (Nat × T)) (v : T) :
    cells.dropWhile (fun c => !(c.2 == v)) = [] ↔
      (cells.map Prod.snd).any (fun x => x == v) = false := by
  induction cells with
  | nil => simp
  | cons c rest ih =>
    rw [List.dropWhile_cons, List.map_cons, List.any_cons]
    cases hcv : c.2 == v
    · simpa using ih
    · simp

theorem erase_cells_length {T : Type} [BEq T] (cells : List (Nat × T)) (v : T)
    (hne : cells.dropWhile (fun c => !(c.2 == v)) ≠ []) :
    (cells.takeWhile (fun c => !(c.2 == v)) ++
      (cells.dropWhile (fun c => !(c.2 == v))).tail).length + 1 = cells.length := by
  have hsplit := List.takeWhile_append_dropWhile (fun c => !(c.2 == v)) cells
  have hlen := congrArg List.length hsplit
  cases hdw : cells.dropWhile (fun c => !(c.2 == v)) with
  | nil => exact absurd hdw hne
  | cons c post =>
    rw [hdw] at hlen
    simp only [List.length_append, List.length_cons, List.tail_cons] at hlen ⊢
    omega

/-! ## A chain that ends never visits a node twice -/

theorem seg_length_unique {T : Type} {h : Heap T} {c1 c2 : List (Nat × T)}
    (h1 : Seg h c1 none) (h2 : Seg h c2 none)
    (he : first_addr c1 none = first_addr c2 none) : c1.length = c2.length := by
  induction c1 generalizing c2 with
  | nil =>
    cases c2 with
    | nil => rfl
    | cons b r2 => simp at he
  | cons a r1 ih =>
    cases c2 with
    | nil => simp at he
    | cons b r2 =>
      obtain ⟨⟨n, hn, -, hnx⟩, hr1⟩ := h1
      obtain ⟨⟨m, hm, -, hmx⟩, hr2⟩ := h2
      simp only [first_addr_cons, Option.some.injEq] at he
      rw [he, hm] at hn
      cases hn
      simp only [List.length_cons, Nat.add_right_cancel_iff]
      exact ih hr1 hr2 (by rw [← hnx, ← hmx])

theorem seg_nodup {T : Type} {h : Heap T} {cells : List (Nat × T)}
    (hs : Seg h cells none) : (cells.map Prod.fst).Nodup := by
  induction cells with
  | nil => simp
  | cons c rest ih =>
    rw [List.map_cons, List.nodup_cons]
    refine ⟨fun hmem => ?_, ih hs.2⟩
    obtain ⟨d, hd, hdc⟩ := List.mem_map.1 hmem
    obtain ⟨r1, r2, rfl⟩ := List.append_of_mem hd
    have hs2 : Seg h (d :: r2) none := (seg_append.1 hs.2).2
    have := seg_length_unique hs hs2 (by simp [hdc])
    simp at this
    omega

/-- In `WellFormed` the clause that no node occurs twice follows from the
others. -/
theorem wellFormed_iff {T : Type} (h : Heap T) (l : LList) (cells : List (Nat × T)) :
    WellFormed h l cells ↔
      (l.head = first_addr cells none ∧ l.tail = last_addr cells none ∧
        l.num_nodes = cells.length ∧ DSeg h none cells none) :=
  ⟨fun hw => ⟨hw.1, hw.2.1, hw.2.2.1, hw.2.2.2.2⟩,
    fun hw => ⟨hw.1, hw.2.1, hw.2.2.1, seg_nodup (dseg_seg hw.2.2.2), hw.2.2.2⟩⟩

theorem chain_length_le {T : Type} {h : Heap T} {l : LList} {cells : List (Nat × T)}
    (hc : Chain h l cells) : cells.length ≤ h.length :=
  nodup_length_le (seg_nodup hc.2) (seg_addr_lt hc.2)

theorem elements_chain {T : Type} {h : Heap T} {l : LList} {cells : List (Nat × T)}
    (hc : Chain h l cells) : elements h l = .ok (cells.map Prod.snd) := by
  rw [elements, hc.1]
  exact elements_loop_seg hc.2 _ (Nat.le_succ_of_le (chain_length_le hc))

theorem any_map_snd {T : Type} [BEq T] (cells : List (Nat × T)) (v : T) :
    ((cells.map Prod.snd).any fun x => x == v) = cells.any fun c => c.2 == v := by
  induction cells with
  | nil => rfl
  | cons c rest ih => rw [List.map_cons, List.any_cons, List.any_cons, ih]

theorem find_chain {T : Type} [BEq T] {h : Heap T} {l : LList} {cells : List (Nat × T)}
    (hc : Chain h l cells) (v : T) :
    find h l v = .ok ((cells.map Prod.snd).any fun x => x == v) h l := by
  rw [find, hc.1, find_loop_seg hc.2 v _ (Nat.le_succ_of_le (chain_length_le hc)),
    any_map_snd]

/-! ## The range check of `insert` -/

theorem insert_out_of_range {T : Type} (h : Heap T) (l : LList) (index : Nat) (v : T)
    (hi : l.num_nodes ≤ index) (hne : ¬ (l.num_nodes = 0 ∧ index = 0)) :
    insert h l index v = .out_of_range h l := by
  have hc : (l.empty && index == 0) = false := by
    rw [Bool.and_eq_false_iff]
    by_cases h0 : l.num_nodes = 0
    · right; simpa using fun e => hne ⟨h0, e⟩
    · left; simpa [LList.empty] using h0
  simp only [insert, hc, check_range_fail h l hi]
  simp

theorem insert_in_range {T : Type} (h : Heap T) (l : LList) (index : Nat) (v : T)
    (hi : index < l.num_nodes) (h1 : Heap T) (l1 : LList) :
    insert h l index v ≠ .out_of_range h1 l1 := by
  have hc : (l.empty && index == 0) = false := by
    rw [Bool.and_eq_false_iff]
    left; simp [LList.empty]; omega
  simp only [insert, hc, check_range_ok h l hi]
  intro hcontra
  simp only [Bool.false_eq_true, if_false] at hcontra
  repeat' split at hcontra
  all_goals exact Outcome.noConfusion hcontra

/-! ## Well-formed test inputs -/

theorem one_wf : WellFormed one_heap one_list [(0, 10)] :=
  ⟨rfl, rfl, rfl, by decide, rfl, trivial⟩

theorem two_wf : WellFormed two_heap two_list [(0, 10), (1, 20)] :=
  ⟨rfl, rfl, rfl, by decide, rfl, rfl, trivial⟩

theorem three_wf : WellFormed three_heap three_list [(0, 10), (1, 20), (2, 30)] :=
  ⟨rfl, rfl, rfl, by decide, rfl, rfl, rfl, trivial⟩

theorem three_built :
    ((push_back ([] : Heap Nat) LList.new 10).next fun h l =>
      (push_back h l 20).next fun h l =>
      (push_back h l 30).next fun h l => some (h, l)) = some (three_heap, three_list) := by
  decide

theorem str_built : main_str_list = some (str_heap, str_list) := by
  decide

theorem str_wf :
    WellFormed str_heap str_list [(0, "Hello"), (1, "There"), (2, "World")] :=
  ⟨rfl, rfl, rfl, by decide, rfl, rfl, rfl, trivial⟩

/-! ## The claims -/

/-- C1, as amended.  For every list that satisfies the data-model invariants,
has `n` nodes and element sequence `xs`, and for every `index` that is `0` or
has `index + 1 < n`: `insert(index, v)` returns normally and a following
`at(index)` returns `v`.  When `n > 0`, `insert(n, v)` throws
`std::out_of_range`. -/
theorem C1_insert_then_at {T : Type} (h : Heap T) (l : LList) (cells : List (Nat × T))
    (index : Nat) (v : T) (hw : WellFormed h l cells) :
    ((index = 0 ∨ index + 1 < cells.length) →
      ∃ h1 l1, insert h l index v = .ok () h1 l1 ∧ at_index h1 l1 index = .ok v h1 l1) ∧
    (0 < cells.length → insert h l cells.length v = .out_of_range h l) := by
  refine ⟨fun hi => ?_, fun hpos => ?_⟩
  · obtain ⟨h1, l1, hins, hch, hnum⟩ := insert_chain hw index v hi
    refine ⟨h1, l1, hins, ?_⟩
    have hle : index ≤ cells.length := by omega
    have hget : (cells.take index ++ (h.length, v) :: cells.drop index)[index]? =
        some (h.length, v) := by
      rw [List.getElem?_append_right (by simp [List.length_take, hle])]
      simp [List.length_take, hle]
    exact at_index_chain hch (by simp [hnum, List.length_take, hle]; omega) hget
  · exact insert_out_of_range h l _ v (by rw [hw.2.2.1]) (by rw [hw.2.2.1]; omega)

/-- Witness of C1 as amended: `insert(1, 99)` then `at(1)` on the list built by
`push_back(10)`, `push_back(20)`, `push_back(30)`. -/
theorem C1_insert_then_at_witness :
    WellFormed three_heap three_list [(0, 10), (1, 20), (2, 30)] ∧
    (∃ h1 l1, insert three_heap three_list 1 99 = .ok () h1 l1 ∧
      at_index h1 l1 1 = .ok 99 h1 l1) ∧
    insert three_heap three_list 3 99 = .out_of_range three_heap three_list :=
  ⟨three_wf,
    (C1_insert_then_at three_heap three_list _ 1 99 three_wf).1 (Or.inr (by decide)),
    (C1_insert_then_at three_heap three_list _ 1 99 three_wf).2 (by decide)⟩

/-- C1 fails as stated.  The list built by `push_back(10)`, `push_back(20)`
satisfies the invariants and has 2 nodes; `insert(2, 99)` throws
`std::out_of_range`, and `insert(1, 99)` returns normally but a following
`at(1)` returns 20, not 99. -/
theorem C1_counterexample :
    ((push_back ([] : Heap Nat) LList.new 10).next fun h l =>
      (push_back h l 20).next fun h l => some (h, l)) = some (two_heap, two_list) ∧
    WellFormed two_heap two_list [(0, 10), (1, 20)] ∧
    insert two_heap two_list 2 99 = .out_of_range two_heap two_list ∧
    ∃ h1 l1, insert two_heap two_list 1 99 = .ok () h1 l1 ∧
      at_index h1 l1 1 = .ok 20 h1 l1 :=
  ⟨by decide, two_wf, by decide, _, _, rfl, by decide⟩

/-- C2, as amended.  For every list state with `num_nodes = n`:
`insert(index, v)` throws `std::out_of_range` if and only if `index >= n` and
not (`n = 0` and `index = 0`), the state at the throw being the state before the
call; so `insert(n, v)` throws whenever `n > 0`.  When `n = 0`, `insert(0, v)`
returns exactly what `push_back(v)` returns. -/
theorem C2_insert_range {T : Type} (h : Heap T) (l : LList) (index : Nat) (v : T) :
    ((∃ h1 l1, insert h l index v = .out_of_range h1 l1) ↔
      (l.num_nodes ≤ index ∧ ¬ (l.num_nodes = 0 ∧ index = 0))) ∧
    ((∃ h1 l1, insert h l index v = .out_of_range h1 l1) →
      insert h l index v = .out_of_range h l) ∧
    (l.num_nodes = 0 → insert h l 0 v = push_back h l v) := by
  have key : (∃ h1 l1, insert h l index v = .out_of_range h1 l1) →
      (l.num_nodes ≤ index ∧ ¬ (l.num_nodes = 0 ∧ index = 0)) := by
    rintro ⟨h1, l1, he⟩
    refine ⟨?_, ?_⟩
    · by_contra hlt
      exact insert_in_range h l index v (by omega) h1 l1 he
    · rintro ⟨hn, rfl⟩
      rw [insert_empty h l v hn] at he
      exact Outcome.noConfusion he
  refine ⟨⟨key, fun hc => ⟨h, l, insert_out_of_range h l index v hc.1 hc.2⟩⟩,
    fun he => insert_out_of_range h l index v (key he).1 (key he).2, fun hn => ?_⟩
  rw [insert_empty h l v hn, push_back_empty h l v hn]

/-- Witness of C2 as amended: on the one-node list built by `push_back(10)`,
`insert(1, 7)` throws; on the empty list `insert(0, 7)` is `push_back(7)`. -/
theorem C2_insert_range_witness :
    insert one_heap one_list 1 7 = .out_of_range one_heap one_list ∧
    insert ([] : Heap Nat) LList.new 0 7 = push_back [] LList.new 7 :=
  ⟨(C2_insert_range one_heap one_list 1 7).2.1
      ((C2_insert_range one_heap one_list 1 7).1.2 ⟨by decide, by decide⟩),
    (C2_insert_range ([] : Heap Nat) LList.new 0 7).2.2 rfl⟩

/-- C2 fails as stated.  On the one-node list built by `push_back(10)`,
`insert(1, 7)` (index equal to the count, not above it) throws
`std::out_of_range`, while `push_back(7)` returns normally with two nodes. -/
theorem C2_counterexample :
    push_back ([] : Heap Nat) LList.new 10 = .ok () one_heap one_list ∧
    one_list.size = 1 ∧
    insert one_heap one_list 1 7 = .out_of_range one_heap one_list ∧
    push_back one_heap one_list 7 = .ok ()
      [some ⟨10, none, some 1⟩, some ⟨7, some 0, none⟩] ⟨some 0, some 1, 2⟩ :=
  ⟨by decide, rfl, by decide, by decide⟩

/-- C3 at its failing input.  The list built by `push_back(10)`,
`push_back(20)` satisfies the invariants and has element sequence `[10, 20]`;
`insert(1, 99)` returns normally with element sequence `[10, 20, 99]` and size
3: the new element is appended after the former last element instead of taking
position 1 (the claim gives `[10, 99, 20]`). -/
theorem C3_insert_at_last_index_appends :
    WellFormed two_heap two_list [(0, 10), (1, 20)] ∧
    elements two_heap two_list = .ok [10, 20] ∧
    ∃ h1 l1, insert two_heap two_list 1 99 = .ok () h1 l1 ∧
      elements h1 l1 = .ok [10, 20, 99] ∧ l1.size = 3 ∧
      ([10, 20, 99] : List Nat) ≠ [10, 20].take 1 ++ [99] ++ [10, 20].drop 1 :=
  ⟨two_wf, rfl, _, _, rfl, rfl, rfl, by decide⟩

/-- C4 at its failing input.  In the run of `main`, after the copy and the
three calls on the copy, the copy renders as `< Super..., Wow!, Hello, World >`
with size 4 (the claim gives `< Wow!, Super..., Hello, World >`); the original
renders as `< Hello, There, World >` with size 3. -/
theorem C4_main_renders :
    (main_lists.map fun (p : Heap String × LList × LList) =>
      (render id p.1 p.2.2, p.2.2.size, render id p.1 p.2.1, p.2.1.size)) =
    some (.ok "< Super..., Wow!, Hello, World >", 4, .ok "< Hello, There, World >", 3) :=
  rfl

/-- C5.  For every list state with `num_nodes = n`: `insert(index, v)` with
`index > n`, `erase(index)` with `index >= n` and `at(index)` with `index >= n`
each throw `std::out_of_range`, and the heap (every node with its data and
links) and the list object (`head`, `tail`, `num_nodes`) at the throw are those
before the call: nothing is allocated, written or deleted before the range
check. -/
theorem C5_out_of_range_leaves_state {T : Type} (h : Heap T) (l : LList) (index : Nat)
    (v : T) :
    (l.num_nodes < index → insert h l index v = .out_of_range h l) ∧
    (l.num_nodes ≤ index → erase_index h l index = .out_of_range h l) ∧
    (l.num_nodes ≤ index → at_index h l index = .out_of_range h l) := by
  refine ⟨fun hi => ?_, fun hi => ?_, fun hi => at_index_out_of_range h l hi⟩
  · exact insert_out_of_range h l index v (Nat.le_of_lt hi) (by omega)
  · simp only [erase_index, check_range_fail h l hi]

/-- Witness of C5 on the list built by `push_back(10)`, `push_back(20)`:
`insert(3, 99)`, `erase(2)` and `at(2)` throw and leave the state as it was. -/
theorem C5_out_of_range_leaves_state_witness :
    insert two_heap two_list 3 99 = .out_of_range two_heap two_list ∧
    erase_index two_heap two_list 2 = .out_of_range two_heap two_list ∧
    at_index two_heap two_list 2 = .out_of_range two_heap two_list :=
  ⟨(C5_out_of_range_leaves_state two_heap two_list 3 99).1 (by decide),
    (C5_out_of_range_leaves_state two_heap two_list 2 99).2.1 (by decide),
    (C5_out_of_range_leaves_state two_heap two_list 2 99).2.2 (by decide)⟩

/-- C6.  For every list that satisfies the data-model invariants, with element
sequence `xs`: `erase(value)` returns normally; the element sequence becomes
`xs` without its first element that compares equal to `value` (`List.erase`:
later duplicates and the order of the rest are kept) and the list satisfies the
invariants again; when some element compares equal, `size()` has decreased by
exactly 1; when none does, heap and list object are unchanged. -/
theorem C6_erase_value {T : Type} [BEq T] (h : Heap T) (l : LList)
    (cells : List (Nat × T)) (v : T) (hw : WellFormed h l cells) :
    ∃ h1 l1, erase h l v = .ok () h1 l1 ∧
      elements h1 l1 = .ok ((cells.map Prod.snd).erase v) ∧
      (∃ cells1, WellFormed h1 l1 cells1 ∧
        cells1.map Prod.snd = (cells.map Prod.snd).erase v) ∧
      (((cells.map Prod.snd).any fun x => x == v) = true → l1.size + 1 = l.size) ∧
      (((cells.map Prod.snd).any fun x => x == v) = false → h1 = h ∧ l1 = l) := by
  obtain ⟨h1, l1, he, hw1, hsame⟩ := erase_wf hw v
  refine ⟨h1, l1, he, ?_, ⟨_, hw1, erase_cells_map cells v⟩, fun hany => ?_, fun hany => ?_⟩
  · rw [elements_chain (wf_chain hw1), erase_cells_map]
  · have hne : cells.dropWhile (fun c => !(c.2 == v)) ≠ [] := by
      intro e
      rw [(dropWhile_eq_nil_iff_any cells v).1 e] at hany
      exact Bool.noConfusion hany
    have hlen := erase_cells_length cells v hne
    rw [LList.size, LList.size, hw1.2.2.1, hw.2.2.1]
    exact hlen
  · exact hsame ((dropWhile_eq_nil_iff_any cells v).2 hany)

/-- Witness of C6: `erase(20)` on the list built by `push_back(10)`,
`push_back(20)`, `push_back(30)`. -/
theorem C6_erase_value_witness :
    WellFormed three_heap three_list [(0, 10), (1, 20), (2, 30)] ∧
    ∃ h1 l1, erase three_heap three_list 20 = .ok () h1 l1 ∧
      elements h1 l1 = .ok ([10, 20, 30].erase 20) ∧
      (∃ cells1, WellFormed h1 l1 cells1 ∧ cells1.map Prod.snd = [10, 20, 30].erase 20) ∧
      ((([10, 20, 30] : List Nat).any fun x => x == 20) = true →
        l1.size + 1 = three_list.size) ∧
      ((([10, 20, 30] : List Nat).any fun x => x == 20) = false →
        h1 = three_heap ∧ l1 = three_list) :=
  ⟨three_wf, C6_erase_value three_heap three_list _ 20 three_wf⟩

/-- C7.  For every list that satisfies the data-model invariants, with element
sequence `xs`, and every `index < length xs`: `erase(index)` returns normally;
the element sequence becomes `xs` without the element at position `index`, the
others in their order; `size()` becomes `length xs - 1`; the list satisfies the
invariants again, so `head` and `tail` are the addresses of the new first and
last nodes, and both are null when no node is left. -/
theorem C7_erase_index {T : Type} (h : Heap T) (l : LList) (cells : List (Nat × T))
    (index : Nat) (hw : WellFormed h l cells) (hi : index < cells.length) :
    ∃ h1 l1, erase_index h l index = .ok () h1 l1 ∧
      elements h1 l1 = .ok ((cells.map Prod.snd).eraseIdx index) ∧
      l1.size = cells.length - 1 ∧
      WellFormed h1 l1 (cells.eraseIdx index) ∧
      l1.head = first_addr (cells.eraseIdx index) none ∧
      l1.tail = last_addr (cells.eraseIdx index) none ∧
      (cells.length = 1 → l1.head = none ∧ l1.tail = none) := by
  obtain ⟨h1, l1, he, hw1⟩ := erase_index_wf hw hi
  have hmap : (cells.eraseIdx index).map Prod.snd = (cells.map Prod.snd).eraseIdx index := by
    rw [List.eraseIdx_eq_take_drop_succ, List.eraseIdx_eq_take_drop_succ, List.map_append,
      List.map_take, List.map_drop]
  refine ⟨h1, l1, he, ?_, ?_, hw1, hw1.1, hw1.2.1, fun h1len => ?_⟩
  · rw [elements_chain (wf_chain hw1), hmap]
  · rw [LList.size, hw1.2.2.1, List.length_eraseIdx, if_pos hi]
  · have hnil : cells.eraseIdx index = [] := by
      apply List.eq_nil_of_length_eq_zero
      rw [List.length_eraseIdx, if_pos hi, h1len]
    rw [hw1.1, hw1.2.1, hnil]
    exact ⟨rfl, rfl⟩

/-- Witness of C7: `erase(2)` (the last index) on the list built by
`push_back(10)`, `push_back(20)`, `push_back(30)`. -/
theorem C7_erase_index_witness :
    WellFormed three_heap three_list [(0, 10), (1, 20), (2, 30)] ∧
    ∃ h1 l1, erase_index three_heap three_list 2 = .ok () h1 l1 ∧
      elements h1 l1 = .ok ([10, 20, 30].eraseIdx 2) ∧
      l1.size = 3 - 1 ∧
      WellFormed h1 l1 ([(0, 10), (1, 20), (2, 30)].eraseIdx 2) ∧
      l1.head = first_addr ([(0, 10), (1, 20), (2, 30)].eraseIdx 2) none ∧
      l1.tail = last_addr ([(0, 10), (1, 20), (2, 30)].eraseIdx 2) none ∧
      (3 = 1 → l1.head = none ∧ l1.tail = none) :=
  ⟨three_wf, C7_erase_index three_heap three_list _ 2 three_wf (by decide)⟩

/-- C8.  For every list that satisfies the data-model invariants, with element
sequence `xs`: when `index < size()`, `at(index)` and `operator[]` return the
element of `xs` at position `index`; when `index >= size()` they throw
`std::out_of_range`; in both cases heap and list object are unchanged.  On the
list of `main` after line 24, which renders as `< Hello, There, World >`,
`at(0)` is `"Hello"` and `at(3)` throws. -/
theorem C8_at {T : Type} (h : Heap T) (l : LList) (cells : List (Nat × T))
    (index : Nat) (hw : WellFormed h l cells) :
    (index < l.size → ∃ x, (cells.map Prod.snd)[index]? = some x ∧
      at_index h l index = .ok x h l ∧ operator_index h l index = .ok x h l) ∧
    (l.size ≤ index → at_index h l index = .out_of_range h l ∧
      operator_index h l index = .out_of_range h l) ∧
    (main_str_list = some (str_heap, str_list) ∧
      render id str_heap str_list = .ok "< Hello, There, World >" ∧
      at_index str_heap str_list 0 = .ok "Hello" str_heap str_list ∧
      at_index str_heap str_list 3 = .out_of_range str_heap str_list) := by
  refine ⟨fun hi => ?_, fun hi => ?_, rfl, rfl, rfl, rfl⟩
  · rw [LList.size, hw.2.2.1] at hi
    have hget : cells[index]? = some cells[index] := List.getElem?_eq_getElem hi
    have hat := at_index_chain (wf_chain hw) hw.2.2.1 hget
    exact ⟨cells[index].2, by rw [List.getElem?_map, hget]; rfl, hat, hat⟩
  · exact ⟨at_index_out_of_range h l hi, at_index_out_of_range h l hi⟩

/-- Witness of C8 on the list of `main` after line 24. -/
theorem C8_at_witness :
    WellFormed str_heap str_list [(0, "Hello"), (1, "There"), (2, "World")] ∧
    (1 < str_list.size → ∃ x, (["Hello", "There", "World"] : List String)[1]? = some x ∧
      at_index str_heap str_list 1 = .ok x str_heap str_list ∧
      operator_index str_heap str_list 1 = .ok x str_heap str_list) :=
  ⟨str_wf, (C8_at str_heap str_list _ 1 str_wf).1⟩

/-- C9.  In every list state, a `find` that returns leaves heap and list
object as they were, so a second `find(v)` returns the same result.  For every
list state in which the `next` links from `head` reach the element sequence
`xs` and then null, `find(v)` returns, and returns true if and only if some
element of `xs` compares equal to `v`.  On the list of `main` after line 24,
`find("Hello")` is true and `find("Nonexistent")` is false. -/
theorem C9_find {T : Type} [BEq T] (h : Heap T) (l : LList) (v : T) :
    (∀ b h1 l1, find h l v = .ok b h1 l1 →
      h1 = h ∧ l1 = l ∧ find h1 l1 v = .ok b h1 l1) ∧
    (∀ cells, Chain h l cells → ∃ b, find h l v = .ok b h l ∧
      (b = true ↔ ∃ x ∈ cells.map Prod.snd, (x == v) = true)) ∧
    (main_str_list = some (str_heap, str_list) ∧
      find str_heap str_list "Hello" = .ok true str_heap str_list ∧
      find str_heap str_list "Nonexistent" = .ok false str_heap str_list) := by
  refine ⟨fun b h1 l1 hf => ?_, fun cells hc => ?_, rfl, rfl, rfl⟩
  · have hst : h1 = h ∧ l1 = l := by
      unfold find at hf
      split at hf
      · rename_i f _
        cases f <;> exact Outcome.noConfusion hf
      · cases hf
        exact ⟨rfl, rfl⟩
    obtain ⟨rfl, rfl⟩ := hst
    exact ⟨rfl, rfl, hf⟩
  · exact ⟨_, find_chain hc v, List.any_eq_true⟩

/-- Witness of C9 on the list of `main` after line 24. -/
theorem C9_find_witness :
    Chain str_heap str_list [(0, "Hello"), (1, "There"), (2, "World")] ∧
    ∃ b, find str_heap str_list "World" = .ok b str_heap str_list ∧
      (b = true ↔ ∃ x ∈ ["Hello", "There", "World"], (x == "World") = true) :=
  ⟨wf_chain str_wf,
    (C9_find str_heap str_list "World").2.1 _ (wf_chain str_wf)⟩

/-- C10, as amended.  For every list whose `next` links from `head` reach the
element sequence `xs` and then null, whose `tail` is the last node of that
sequence when there is one, and whose `num_nodes` is zero exactly when `xs` is
empty and is below `SIZE_MAX`: `push_front(v)` returns normally with element
sequence `[v] ++ xs`, `push_back(v)` returns normally with element sequence
`xs ++ [v]`, and each increases `size()` by exactly 1, which is what the
machine increment `inc` gives. -/
theorem C10_push {T : Type} (h : Heap T) (l : LList) (cells : List (Nat × T)) (v : T)
    (hc : Chain h l cells) (ht : cells ≠ [] → l.tail = last_addr cells none)
    (hz : l.num_nodes = 0 ↔ cells = []) (hlt : l.num_nodes < SIZE_MAX) :
    (∃ h1 l1, push_front h l v = .ok () h1 l1 ∧
      elements h1 l1 = .ok ([v] ++ cells.map Prod.snd) ∧ l1.size = l.size + 1 ∧
      l1.size = inc l.size) ∧
    (∃ h1 l1, push_back h l v = .ok () h1 l1 ∧
      elements h1 l1 = .ok (cells.map Prod.snd ++ [v]) ∧ l1.size = l.size + 1 ∧
      l1.size = inc l.size) := by
  obtain ⟨h1, l1, hp, hch, hn, -⟩ := push_front_chain hc hz v
  obtain ⟨h2, l2, hp2, hch2, hn2, -⟩ := push_back_chain hc ht hz v
  have hinc : inc l.size = l.num_nodes + 1 := inc_of_lt hlt
  refine ⟨⟨h1, l1, hp, ?_, hn, by rw [hinc]; exact hn⟩,
    ⟨h2, l2, hp2, ?_, hn2, by rw [hinc]; exact hn2⟩⟩
  · rw [elements_chain hch]; rfl
  · rw [elements_chain hch2, List.map_append]; rfl

/-- Witness of C10 as amended, on the list built by `push_back(10)`,
`push_back(20)`. -/
theorem C10_push_witness :
    Chain two_heap two_list [(0, 10), (1, 20)] ∧ two_list.num_nodes < SIZE_MAX ∧
    (∃ h1 l1, push_front two_heap two_list 5 = .ok () h1 l1 ∧
      elements h1 l1 = .ok ([5] ++ [10, 20]) ∧ l1.size = two_list.size + 1 ∧
      l1.size = inc two_list.size) ∧
    (∃ h1 l1, push_back two_heap two_list 5 = .ok () h1 l1 ∧
      elements h1 l1 = .ok ([10, 20] ++ [5]) ∧ l1.size = two_list.size + 1 ∧
      l1.size = inc two_list.size) :=
  ⟨wf_chain two_wf, by decide,
    C10_push two_heap two_list _ 5 (wf_chain two_wf) (fun _ => rfl) (by decide) (by decide)⟩

/-- C10 fails as stated.  The calls `push_back(1)`, `push_front(2)`,
`erase(1)` (by index) on an empty list return normally and leave `head` and
`tail` null with `num_nodes = 1`: the element sequence is empty and there is no
last node, yet `push_back(3)` dereferences the null `tail`.  In the state with
one node, `head` and `tail` on it and `num_nodes = 0`, the element sequence is
`[5]` and `tail` is its last node, yet `push_back(3)` and `push_front(3)` both
leave the element sequence `[3]`. -/
theorem C10_counterexample :
    ((push_back ([] : Heap Nat) LList.new 1).next fun h l =>
      (push_front h l 2).next fun h l =>
      (erase_index h l 1).next fun h l => some (h, l)) = some (lost_heap, lost_list) ∧
    Chain lost_heap lost_list [] ∧
    elements lost_heap lost_list = .ok [] ∧
    push_back lost_heap lost_list 3 = .undefined ∧
    Chain [some ⟨5, none, none⟩] ⟨some 0, some 0, 0⟩ [(0, 5)] ∧
    (⟨some 0, some 0, 0⟩ : LList).tail = last_addr [(0, 5)] none ∧
    (∃ h1 l1, push_back [some ⟨5, none, none⟩] ⟨some 0, some 0, 0⟩ 3 = .ok () h1 l1 ∧
      elements h1 l1 = .ok [3]) ∧
    (∃ h1 l1, push_front [some ⟨5, none, none⟩] ⟨some 0, some 0, 0⟩ 3 = .ok () h1 l1 ∧
      elements h1 l1 = .ok [3]) :=
  ⟨by decide, ⟨rfl, trivial⟩, rfl, by decide, ⟨rfl, ⟨_, rfl, rfl, rfl⟩, trivial⟩, rfl,
    ⟨_, _, rfl, rfl⟩, ⟨_, _, rfl, rfl⟩⟩

end rcd

namespace rcd

/-! ## Erasing by value and by index -/

theorem dropWhile_eq_drop_of_first {T : Type} [BEq T] (v : T) (cells : List (Nat × T))
    (i : Nat) (x : T) (hx : (cells.map Prod.snd)[i]? = some x) (hv : (x == v) = true)
    (hfirst : ∀ j y, j < i → (cells.map Prod.snd)[j]? = some y → (y == v) = false) :
    cells.dropWhile (fun c => !(c.2 == v)) = cells.drop i := by
  induction i generalizing cells with
  | zero =>
    cases cells with
    | nil => simp at hx
    | cons c rest =>
      simp only [List.map_cons, List.getElem?_cons_zero, Option.some.injEq] at hx
      rw [List.dropWhile_cons, hx, hv]
      rfl
  | succ i ih =>
    cases cells with
    | nil => simp at hx
    | cons c rest =>
      have h0 : (c.2 == v) = false := hfirst 0 c.2 (Nat.succ_pos i) (by simp)
      rw [List.dropWhile_cons, h0]
      simp only [Bool.not_false, if_true, List.drop_succ_cons]
      refine ih rest (by simpa using hx) (fun j y hj hy => ?_)
      exact hfirst (j + 1) y (Nat.succ_lt_succ hj) (by simpa using hy)

theorem erase_eq_unlink {T : Type} [BEq T] {h : Heap T} {l : LList}
    {cells : List (Nat × T)} (hw : WellFormed h l cells) (v : T) {i : Nat}
    (hi : i < cells.length)
    (hd : cells.dropWhile (fun c => !(c.2 == v)) = cells.drop i) :
    erase h l v = unlink h l cells[i].1 ∧ erase_index h l i = unlink h l cells[i].1 := by
  have hdrop : cells.drop i = cells[i] :: cells.drop (i + 1) := List.drop_eq_getElem_cons hi
  have hloop := erase_loop_seg (dseg_seg hw.2.2.2.2) v (h.length + 1)
    (Nat.le_succ_of_le (wf_length_le hw))
  rw [hd, hdrop, first_addr_cons] at hloop
  have hseek : seek h i l.head = some (some cells[i].1) := by
    rw [hw.1, seek_seg (dseg_seg hw.2.2.2.2), hdrop]; rfl
  constructor
  · simp only [erase, hw.1, hloop]
  · simp only [erase_index, check_range_ok h l (hw.2.2.1 ▸ hi), hseek]

/-! ## `insert(0, v)` and `push_front(v)` -/

theorem alloc_set_fresh {T : Type} (h : Heap T) (n : Node T) :
    (h.alloc n).set h.length (some n) = h.alloc n := by
  simp [Heap.alloc]

theorem insert_zero_eq_push_front {T : Type} (h : Heap T) (l : LList) (v : T)
    (hs : l.num_nodes = 0 ∨
      ∃ a c, l.head = some a ∧ h.deref (some a) = some c ∧ c.prev = none) :
    insert h l 0 v = push_front h l v := by
  by_cases hn : l.num_nodes = 0
  · rw [insert_empty h l v hn, push_front_empty h l v hn]
  · rcases hs with h0 | ⟨a, c, hh, hd, hp⟩
    · exact absurd h0 hn
    · rw [insert_front v hn hh hd hp, push_front_nonempty h l v hn, alloc_set_fresh]

end rcd

namespace rcd

/-! ## Rendering -/

theorem render_loop_seg {T : Type} (show_data : T → String) {h : Heap T}
    {cells : List (Nat × T)} (hs : Seg h cells none) (fuel : Nat)
    (hf : cells.length ≤ fuel) :
    render_loop show_data h fuel (first_addr cells none) =
      .ok (joined (cells.map fun c => show_data c.2)) := by
  induction cells generalizing fuel with
  | nil => cases fuel <;> rfl
  | cons c rest ih =>
    obtain ⟨⟨n, hn, hdat, hnx⟩, hr⟩ := hs
    cases fuel with
    | zero => simp at hf
    | succ fuel =>
      have hrec := ih hr fuel (by simpa using hf)
      simp only [first_addr_cons, render_loop, hn, hnx, hrec, hdat]
      cases rest with
      | nil => simp [joined]
      | cons d rest2 => simp [joined]

theorem render_chain {T : Type} (show_data : T → String) {h : Heap T} {l : LList}
    {cells : List (Nat × T)} (hc : Chain h l cells) :
    render show_data h l =
      .ok ("< " ++ joined ((cells.map Prod.snd).map show_data) ++ " >") := by
  rw [render, hc.1, render_loop_seg show_data hc.2 _ (Nat.le_succ_of_le (chain_length_le hc)),
    List.map_map]
  rfl

theorem intercalate_go_cons (s acc b : String) (rest : List String) :
    String.intercalate.go acc s (b :: rest) = acc ++ s ++ String.intercalate.go b s rest := by
  induction rest generalizing acc b with
  | nil => rfl
  | cons c r ih =>
    rw [String.intercalate.go, ih (acc ++ s ++ b) c, ih b c]
    simp only [String.append_assoc]

/-- The text `joined` is the library's `String.intercalate` with separator
`", "`. -/
theorem joined_eq_intercalate : ∀ xs : List String, joined xs = ", ".intercalate xs
  | [] => rfl
  | [_] => rfl
  | a :: b :: rest => by
    rw [joined, joined_eq_intercalate (b :: rest)]
    show a ++ ", " ++ String.intercalate.go b ", " rest = String.intercalate.go a ", " (b :: rest)
    rw [intercalate_go_cons]

end rcd

namespace rcd

/-! ## A list that lives above an older heap -/

theorem deref_eq_some_iff {T : Type} (h : Heap T) (a : Nat) (n : Node T) :
    h.deref (some a) = some n ↔ h[a]? = some (some n) := by
  exact Option.join_eq_some

theorem take_set_of_le {α : Type} (x : α) {n m : Nat} (l : List α) (hmn : m ≤ n) :
    (l.set n x).take m = l.take m :=
  List.ext_getElem? fun i => by
    rw [List.getElem?_take, List.getElem?_take]
    split
    · rw [List.getElem?_set_ne (by omega)]
    · rfl

theorem live_alloc {T : Type} (h : Heap T) (n : Node T) :
    live_nodes (h.alloc n) = live_nodes h + 1 := by
  simp [live_nodes, Heap.alloc]

theorem live_pos_of_deref {T : Type} {h : Heap T} {a : Nat} {n : Node T}
    (hd : h.deref (some a) = some n) : 0 < live_nodes h := by
  rw [live_nodes, List.countP_pos_iff]
  exact ⟨some n, List.getElem?_mem ((deref_eq_some_iff h a n).1 hd), rfl⟩

theorem live_set_some {T : Type} {h : Heap T} {a : Nat} {n : Node T} (m : Node T)
    (hd : h.deref (some a) = some n) : live_nodes (h.set a (some m)) = live_nodes h := by
  have hlt := deref_lt hd
  have hpos := live_pos_of_deref hd
  have hget : h[a] = some n := by
    have := (deref_eq_some_iff h a n).1 hd
    rw [List.getElem?_eq_getElem hlt] at this
    exact Option.some.inj this
  unfold live_nodes at hpos ⊢
  rw [List.countP_set _ _ _ _ hlt, hget]
  simp only [Option.isSome_some, if_true]
  omega

theorem live_free {T : Type} {h : Heap T} {a : Nat} {n : Node T}
    (hd : h.deref (some a) = some n) : live_nodes (h.free a) + 1 = live_nodes h := by
  have hlt := deref_lt hd
  have hpos := live_pos_of_deref hd
  have hget : h[a] = some n := by
    have := (deref_eq_some_iff h a n).1 hd
    rw [List.getElem?_eq_getElem hlt] at this
    exact Option.some.inj this
  unfold live_nodes at hpos ⊢
  rw [Heap.free, List.countP_set _ _ _ _ hlt, hget]
  simp only [Option.isSome_some, Option.isSome_none, if_true]
  simp only [Bool.false_eq_true, if_false]
  omega

theorem live_gt_of_deref_above {T : Type} {h0 h : Heap T} {a : Nat} {n : Node T}
    (ht : h.take h0.length = h0) (ha : h0.length ≤ a) (hd : h.deref (some a) = some n) :
    live_nodes h0 < live_nodes h := by
  have hsplit : live_nodes h = live_nodes h0 + (h.drop h0.length).countP Option.isSome := by
    conv_lhs => rw [live_nodes, ← List.take_append_drop h0.length h, List.countP_append, ht]
    rfl
  have hpos : 0 < (h.drop h0.length).countP Option.isSome := by
    rw [List.countP_pos_iff]
    have hget : (h.drop h0.length)[a - h0.length]? = some (some n) := by
      rw [List.getElem?_drop, Nat.add_sub_cancel' ha]
      exact (deref_eq_some_iff h a n).1 hd
    exact ⟨some n, List.getElem?_mem hget, rfl⟩
  omega

theorem ptrGe_none (k : Nat) : PtrGe k none := fun _ e => Option.noConfusion e

theorem ptrGe_some {k a : Nat} (hka : k ≤ a) : PtrGe k (some a) :=
  fun _ e => Option.some.inj e ▸ hka

theorem closed_deref {T : Type} {k : Nat} {h : Heap T} (hc : Closed k h) {p : Option Nat}
    (hp : PtrGe k p) {n : Node T} (hd : h.deref p = some n) :
    PtrGe k n.prev ∧ PtrGe k n.next := by
  cases p with
  | none => simp [Heap.deref] at hd
  | some a => exact hc a n (hp a rfl) hd

theorem take_length_le {α : Type} {l l0 : List α} (ht : l.take l0.length = l0) :
    l0.length ≤ l.length := by
  have := congrArg List.length ht
  rw [List.length_take] at this
  omega

end rcd

namespace rcd

theorem deref_set_some {T : Type} {h : Heap T} {a b : Nat} {v : Option (Node T)}
    {m : Node T} (hd : Heap.deref (h.set a v) (some b) = some m) :
    (a = b ∧ v = some m) ∨ (a ≠ b ∧ h.deref (some b) = some m) := by
  by_cases hab : a = b
  · subst hab
    have hlt : a < h.length := by simpa using deref_lt hd
    rw [deref_set_eq h v hlt] at hd
    exact Or.inl ⟨rfl, hd⟩
  · rw [deref_set_ne h v hab] at hd
    exact Or.inr ⟨hab, hd⟩

theorem closed_alloc {T : Type} {k : Nat} {h : Heap T} (hc : Closed k h)
    {n : Node T} (hp : PtrGe k n.prev) (hn : PtrGe k n.next) :
    Closed k (h.alloc n) := by
  intro a m hka hd
  by_cases hlt : a < h.length
  · rw [deref_alloc_of_lt h n hlt] at hd
    exact hc a m hka hd
  · have hlt2 : a < (h.alloc n).length := deref_lt hd
    have ha : a = h.length := by
      simp [Heap.alloc] at hlt2
      omega
    subst ha
    rw [deref_alloc_fresh] at hd
    cases hd
    exact ⟨hp, hn⟩

theorem take_alloc {T : Type} {k : Nat} (h : Heap T) (n : Node T) (hk : k ≤ h.length) :
    (h.alloc n).take k = h.take k :=
  List.take_append_of_le_length hk

theorem closed_set {T : Type} {k : Nat} {h : Heap T} (hc : Closed k h) (a : Nat)
    {m : Node T} (hp : PtrGe k m.prev) (hn : PtrGe k m.next) :
    Closed k (h.set a (some m)) := by
  intro b x hkb hd
  rcases deref_set_some hd with ⟨-, hv⟩ | ⟨-, hold⟩
  · cases hv
    exact ⟨hp, hn⟩
  · exact hc b x hkb hold

theorem closed_free {T : Type} {k : Nat} {h : Heap T} (hc : Closed k h) (a : Nat) :
    Closed k (h.free a) := by
  intro b x hkb hd
  rcases deref_set_some hd with ⟨-, hv⟩ | ⟨-, hold⟩
  · cases hv
  · exact hc b x hkb hold

theorem set_next_spec {T : Type} {h h1 : Heap T} {p q : Option Nat}
    (hs : h.set_next p q = some h1) :
    ∃ a n, p = some a ∧ h.deref (some a) = some n ∧
      h1 = h.set a (some ⟨n.data, n.prev, q⟩) := by
  cases p with
  | none => simp [Heap.set_next] at hs
  | some a =>
    cases hd : h.deref (some a) with
    | none => simp [Heap.set_next, hd] at hs
    | some n =>
      simp only [Heap.set_next, hd, Option.some.injEq] at hs
      exact ⟨a, n, rfl, hd, hs.symm⟩

theorem set_prev_spec {T : Type} {h h1 : Heap T} {p q : Option Nat}
    (hs : h.set_prev p q = some h1) :
    ∃ a n, p = some a ∧ h.deref (some a) = some n ∧
      h1 = h.set a (some ⟨n.data, q, n.next⟩) := by
  cases p with
  | none => simp [Heap.set_prev] at hs
  | some a =>
    cases hd : h.deref (some a) with
    | none => simp [Heap.set_prev, hd] at hs
    | some n =>
      simp only [Heap.set_prev, hd, Option.some.injEq] at hs
      exact ⟨a, n, rfl, hd, hs.symm⟩

/-- The heap part of `Above`, kept by every write above `h0`. -/
theorem above_set_next {T : Type} {h0 h h1 : Heap T} {p q : Option Nat}
    (ht : h.take h0.length = h0) (hc : Closed h0.length h)
    (hp : PtrGe h0.length p) (hq : PtrGe h0.length q)
    (hs : h.set_next p q = some h1) :
    h1.take h0.length = h0 ∧ Closed h0.length h1 ∧ live_nodes h1 = live_nodes h ∧
      ∀ b, (h.deref (some b)).isSome → (h1.deref (some b)).isSome := by
  obtain ⟨a, n, rfl, hd, rfl⟩ := set_next_spec hs
  have hpn := hc a n (hp a rfl) hd
  refine ⟨?_, closed_set hc a hpn.1 hq, live_set_some _ hd, fun b hb => ?_⟩
  · rw [take_set_of_le _ _ (hp a rfl), ht]
  · by_cases hab : a = b
    · subst hab
      rw [deref_set_eq _ _ (deref_lt hd)]
      rfl
    · rw [deref_set_ne _ _ hab]
      exact hb

theorem above_set_prev {T : Type} {h0 h h1 : Heap T} {p q : Option Nat}
    (ht : h.take h0.length = h0) (hc : Closed h0.length h)
    (hp : PtrGe h0.length p) (hq : PtrGe h0.length q)
    (hs : h.set_prev p q = some h1) :
    h1.take h0.length = h0 ∧ Closed h0.length h1 ∧ live_nodes h1 = live_nodes h ∧
      ∀ b, (h.deref (some b)).isSome → (h1.deref (some b)).isSome := by
  obtain ⟨a, n, rfl, hd, rfl⟩ := set_prev_spec hs
  have hpn := hc a n (hp a rfl) hd
  refine ⟨?_, closed_set hc a hq hpn.2, live_set_some _ hd, fun b hb => ?_⟩
  · rw [take_set_of_le _ _ (hp a rfl), ht]
  · by_cases hab : a = b
    · subst hab
      rw [deref_set_eq _ _ (deref_lt hd)]
      rfl
    · rw [deref_set_ne _ _ hab]
      exact hb

theorem seek_ptrGe {T : Type} {k : Nat} {h : Heap T} (hc : Closed k h) (i : Nat)
    {p q : Option Nat} (hp : PtrGe k p) (hs : seek h i p = some q) : PtrGe k q := by
  induction i generalizing p with
  | zero =>
    cases p with
    | none => simp only [seek, Option.some.injEq] at hs; exact hs ▸ hp
    | some a => simp only [seek, Option.some.injEq] at hs; exact hs ▸ hp
  | succ i ih =>
    cases p with
    | none => simp only [seek, Option.some.injEq] at hs; exact hs ▸ hp
    | some a =>
      cases hd : h.deref (some a) with
      | none => simp [seek, hd] at hs
      | some n =>
        simp only [seek, hd] at hs
        exact ih (hc a n (hp a rfl) hd).2 hs

theorem erase_loop_ptrGe {T : Type} [BEq T] {k : Nat} {h : Heap T} (hc : Closed k h)
    (v : T) (fuel : Nat) {p q : Option Nat} (hp : PtrGe k p)
    (hs : erase_loop h v fuel p = .ok q) : PtrGe k q := by
  induction fuel generalizing p with
  | zero =>
    cases p with
    | none => simp only [erase_loop, Except.ok.injEq] at hs; exact hs ▸ hp
    | some a => simp [erase_loop] at hs
  | succ fuel ih =>
    cases p with
    | none => simp only [erase_loop, Except.ok.injEq] at hs; exact hs ▸ hp
    | some a =>
      cases hd : h.deref (some a) with
      | none => simp [erase_loop, hd] at hs
      | some n =>
        simp only [erase_loop, hd] at hs
        split at hs
        · simp only [Except.ok.injEq] at hs; exact hs ▸ hp
        · exact ih (hc a n (hp a rfl) hd).2 hs

end rcd

namespace rcd

/-! ## What a member function that returns has done, in any state -/

theorem unlink_spec {T : Type} {h h3 : Heap T} {l l3 : LList} {curr : Nat}
    (hu : unlink h l curr = .ok () h3 l3) :
    ∃ c h1 l1 c1 h2 l2, h.deref (some curr) = some c ∧
      ((c.prev = none ∧ h1 = h ∧ l1 = { l with head := c.next }) ∨
        (c.prev ≠ none ∧ h.set_next c.prev c.next = some h1 ∧ l1 = l)) ∧
      h1.deref (some curr) = some c1 ∧
      ((c1.next = none ∧ h2 = h1 ∧ l2 = { l1 with tail := c1.prev }) ∨
        (c1.next ≠ none ∧ h1.set_prev c1.next c1.prev = some h2 ∧ l2 = l1)) ∧
      h3 = h2.free curr ∧ l3 = { l2 with num_nodes := dec l2.num_nodes } := by
  unfold unlink at hu
  split at hu
  · exact Outcome.noConfusion hu
  · rename_i c hc
    simp only at hu
    split at hu
    · exact Outcome.noConfusion hu
    · rename_i h1 l1 hstep1
      split at hu
      · exact Outcome.noConfusion hu
      · rename_i c1 hc1
        split at hu
        · exact Outcome.noConfusion hu
        · rename_i h2 l2 hstep2
          cases hu
          refine ⟨c, h1, l1, c1, h2, l2, hc, ?_, hc1, ?_, rfl, rfl⟩
          · by_cases hp : c.prev = none
            · simp only [hp, if_true, Option.some.injEq, Prod.mk.injEq] at hstep1
              exact Or.inl ⟨hp, hstep1.1.symm, hstep1.2.symm⟩
            · simp only [hp, if_false, Option.map_eq_some', Prod.mk.injEq] at hstep1
              obtain ⟨hx, hs, rfl, rfl⟩ := hstep1
              exact Or.inr ⟨hp, hs, rfl⟩
          · by_cases hn : c1.next = none
            · simp only [hn, if_true, Option.some.injEq, Prod.mk.injEq] at hstep2
              exact Or.inl ⟨hn, hstep2.1.symm, hstep2.2.symm⟩
            · simp only [hn, if_false, Option.map_eq_some', Prod.mk.injEq] at hstep2
              obtain ⟨hx, hs, rfl, rfl⟩ := hstep2
              exact Or.inr ⟨hn, hs, rfl⟩

end rcd

namespace rcd

theorem unlink_above {T : Type} {h0 h h3 : Heap T} {l l3 : LList} {curr : Nat}
    (ha : Above h0 h l) (hk : h0.length ≤ curr) (hu : unlink h l curr = .ok () h3 l3) :
    Above h0 h3 l3 ∧ live_nodes h3 + 1 = live_nodes h ∧
      l3.num_nodes + 1 = l.num_nodes := by
  obtain ⟨ht, hhead, htail, hcl, hlive⟩ := ha
  obtain ⟨c, h1, l1, c1, h2, l2, hc, hs1, hc1, hs2, rfl, rfl⟩ := unlink_spec hu
  have hcp := hcl curr c hk hc
  have hpos : live_nodes h0 < live_nodes h := live_gt_of_deref_above ht hk hc
  -- first step
  have h1facts : h1.take h0.length = h0 ∧ Closed h0.length h1 ∧
      live_nodes h1 = live_nodes h ∧ PtrGe h0.length l1.head ∧ PtrGe h0.length l1.tail ∧
      l1.num_nodes = l.num_nodes := by
    rcases hs1 with ⟨-, rfl, rfl⟩ | ⟨-, hs, rfl⟩
    · exact ⟨ht, hcl, rfl, hcp.2, htail, rfl⟩
    · obtain ⟨t1, c1x, lv, -⟩ := above_set_next ht hcl hcp.1 hcp.2 hs
      exact ⟨t1, c1x, lv, hhead, htail, rfl⟩
  obtain ⟨ht1, hcl1, hlive1, hhead1, htail1, hnum1⟩ := h1facts
  have hcp1 := hcl1 curr c1 hk hc1
  have h2facts : h2.take h0.length = h0 ∧ Closed h0.length h2 ∧
      live_nodes h2 = live_nodes h1 ∧ PtrGe h0.length l2.head ∧ PtrGe h0.length l2.tail ∧
      l2.num_nodes = l1.num_nodes ∧ (h2.deref (some curr)).isSome := by
    rcases hs2 with ⟨-, rfl, rfl⟩ | ⟨-, hs, rfl⟩
    · exact ⟨ht1, hcl1, rfl, hhead1, hcp1.1, rfl, by rw [hc1]; rfl⟩
    · obtain ⟨t2, c2x, lv, hsome⟩ := above_set_prev ht1 hcl1 hcp1.2 hcp1.1 hs
      exact ⟨t2, c2x, lv, hhead1, htail1, rfl, hsome curr (by rw [hc1]; rfl)⟩
  obtain ⟨ht2, hcl2, hlive2, hhead2, htail2, hnum2, hsome2⟩ := h2facts
  obtain ⟨n2, hn2⟩ := Option.isSome_iff_exists.1 hsome2
  have hfree := live_free hn2
  have hnpos : l.num_nodes ≠ 0 := by omega
  have hdec : dec l2.num_nodes + 1 = l.num_nodes := by
    rw [hnum2, hnum1, dec, if_neg hnpos]
    omega
  refine ⟨⟨?_, hhead2, htail2, closed_free hcl2 curr, ?_⟩, by omega, hdec⟩
  · rw [Heap.free, take_set_of_le _ _ hk, ht2]
  · show live_nodes (h2.free curr) ≤ dec l2.num_nodes + live_nodes h0
    omega

end rcd

namespace rcd

theorem erase_spec {T : Type} [BEq T] {h h1 : Heap T} {l l1 : LList} {v : T}
    (he : erase h l v = .ok () h1 l1) :
    (h1 = h ∧ l1 = l) ∨
      ∃ curr, erase_loop h v (h.length + 1) l.head = .ok (some curr) ∧
        unlink h l curr = .ok () h1 l1 := by
  unfold erase at he
  split at he
  · rename_i f _
    cases f <;> exact Outcome.noConfusion he
  · cases he
    exact Or.inl ⟨rfl, rfl⟩
  · rename_i curr hloop
    exact Or.inr ⟨curr, hloop, he⟩

theorem erase_index_spec {T : Type} {h h1 : Heap T} {l l1 : LList} {i : Nat}
    (he : erase_index h l i = .ok () h1 l1) :
    (h1 = h ∧ l1 = l) ∨
      ∃ curr, seek h i l.head = some (some curr) ∧ unlink h l curr = .ok () h1 l1 := by
  by_cases hi : i < l.num_nodes
  · simp only [erase_index, check_range_ok h l hi] at he
    split at he
    · exact Outcome.noConfusion he
    · cases he
      exact Or.inl ⟨rfl, rfl⟩
    · rename_i curr hseek
      exact Or.inr ⟨curr, hseek, he⟩
  · simp only [erase_index, check_range_fail h l (Nat.le_of_not_lt hi)] at he
    exact Outcome.noConfusion he

theorem push_back_spec {T : Type} {h h1 : Heap T} {l l1 : LList} {v : T}
    (hp : push_back h l v = .ok () h1 l1) :
    (l.num_nodes = 0 ∧ h1 = h.alloc ⟨v, none, none⟩ ∧
      l1 = ⟨some h.length, some h.length, l.num_nodes + 1⟩) ∨
    (l.num_nodes ≠ 0 ∧
      (h.alloc ⟨v, l.tail, none⟩).set_next l.tail (some h.length) = some h1 ∧
      l1 = ⟨l.head, some h.length, l.num_nodes + 1⟩) := by
  by_cases hn : l.num_nodes = 0
  · rw [push_back_empty h l v hn] at hp
    cases hp
    exact Or.inl ⟨hn, rfl, rfl⟩
  · have he : l.empty = false := by simp [LList.empty, hn]
    simp only [push_back, he, Bool.false_eq_true, if_false, Heap.fresh] at hp
    split at hp
    · exact Outcome.noConfusion hp
    · rename_i h2 hset
      cases hp
      exact Or.inr ⟨hn, hset, rfl⟩

theorem insert_spec {T : Type} {h h1 : Heap T} {l l1 : LList} {index : Nat} {v : T}
    (hi : insert h l index v = .ok () h1 l1) :
    (h1 = h.alloc ⟨v, none, none⟩ ∧
      l1 = ⟨some h.length, some h.length, l.num_nodes + 1⟩) ∨
    (seek h index l.head = some none ∧ h1 = h ∧
      l1 = ⟨l.head, l.tail, l.num_nodes + 1⟩) ∨
    ∃ curr c, seek h index l.head = some (some curr) ∧ h.deref (some curr) = some c ∧
      ((h1 = h.alloc ⟨v, none, l.head⟩ ∧
          l1 = ⟨some h.length, l.tail, l.num_nodes + 1⟩) ∨
        ((h.alloc ⟨v, l.tail, none⟩).set_next l.tail (some h.length) = some h1 ∧
          l1 = ⟨l.head, some h.length, l.num_nodes + 1⟩) ∨
        ((h.alloc ⟨v, c.prev, some curr⟩).set_next c.prev (some h.length) = some h1 ∧
          l1 = ⟨l.head, l.tail, l.num_nodes + 1⟩)) := by
  unfold insert at hi
  split at hi
  · cases hi
    exact Or.inl ⟨rfl, rfl⟩
  · split at hi
    · exact Outcome.noConfusion hi
    · exact Outcome.noConfusion hi
    · exact Outcome.noConfusion hi
    · rename_i u h2 l2 hcheck
      have hst : h2 = h ∧ l2 = l := by
        unfold check_range at hcheck
        split at hcheck
        · exact Outcome.noConfusion hcheck
        · cases hcheck
          exact ⟨rfl, rfl⟩
      obtain ⟨rfl, rfl⟩ := hst
      split at hi
      · exact Outcome.noConfusion hi
      · rename_i hseek
        cases hi
        exact Or.inr (Or.inl ⟨hseek, rfl, rfl⟩)
      · rename_i curr hseek
        split at hi
        · exact Outcome.noConfusion hi
        · rename_i c hc
          refine Or.inr (Or.inr ⟨curr, c, hseek, hc, ?_⟩)
          split at hi
          · cases hi
            exact Or.inl ⟨rfl, rfl⟩
          · split at hi
            · simp only [Heap.fresh] at hi
              split at hi
              · exact Outcome.noConfusion hi
              · rename_i h3 hset
                cases hi
                exact Or.inr (Or.inl ⟨hset, rfl⟩)
            · simp only [Heap.fresh] at hi
              split at hi
              · exact Outcome.noConfusion hi
              · rename_i h3 hset
                cases hi
                exact Or.inr (Or.inr ⟨hset, rfl⟩)

end rcd

namespace rcd

/-! ## Every mutator keeps the list above the older heap -/

theorem above_alloc_step {T : Type} {h0 h : Heap T} {l : LList} (ha : Above h0 h l)
    {n : Node T} (hp : PtrGe h0.length n.prev) (hn : PtrGe h0.length n.next)
    {l1 : LList} (hh : PtrGe h0.length l1.head) (ht : PtrGe h0.length l1.tail)
    (hnum : l1.num_nodes = l.num_nodes + 1) : Above h0 (h.alloc n) l1 := by
  obtain ⟨htk, -, -, hcl, hlive⟩ := ha
  refine ⟨?_, hh, ht, closed_alloc hcl hp hn, ?_⟩
  · rw [take_alloc h n (take_length_le htk), htk]
  · rw [live_alloc, hnum]; omega

theorem above_alloc_set_next {T : Type} {h0 h h1 : Heap T} {l : LList}
    (ha : Above h0 h l) (n : Node T) (l1 : LList) (hp : PtrGe h0.length n.prev)
    (hn : PtrGe h0.length n.next) {p : Option Nat} (hpp : PtrGe h0.length p)
    (hs : (h.alloc n).set_next p (some h.length) = some h1)
    (hh : PtrGe h0.length l1.head) (ht : PtrGe h0.length l1.tail)
    (hnum : l1.num_nodes = l.num_nodes + 1) :
    Above h0 h1 l1 ∧ live_nodes h ≤ live_nodes h1 := by
  have hk := take_length_le ha.1
  have ha1 := above_alloc_step ha hp hn hh ht hnum
  obtain ⟨t1, c1, lv, -⟩ := above_set_next ha1.1 ha1.2.2.2.1 hpp (ptrGe_some hk) hs
  refine ⟨⟨t1, hh, ht, c1, ?_⟩, ?_⟩
  · rw [lv]; exact ha1.2.2.2.2
  · rw [lv, live_alloc]; omega

theorem push_front_above {T : Type} {h0 h h1 : Heap T} {l l1 : LList} {v : T}
    (ha : Above h0 h l) (hr : push_front h l v = .ok () h1 l1) :
    Above h0 h1 l1 ∧ l1.num_nodes = l.num_nodes + 1 ∧ live_nodes h ≤ live_nodes h1 := by
  have hk := take_length_le ha.1
  by_cases hn : l.num_nodes = 0
  · rw [push_front_empty h l v hn] at hr
    cases hr
    exact ⟨above_alloc_step ha (ptrGe_none _) (ptrGe_none _) (ptrGe_some hk)
      (ptrGe_some hk) rfl, rfl, by rw [live_alloc]; omega⟩
  · rw [push_front_nonempty h l v hn, alloc_set_fresh] at hr
    cases hr
    exact ⟨above_alloc_step ha (ptrGe_none _) ha.2.1 (ptrGe_some hk) ha.2.2.1 rfl, rfl,
      by rw [live_alloc]; omega⟩

theorem push_back_above {T : Type} {h0 h h1 : Heap T} {l l1 : LList} {v : T}
    (ha : Above h0 h l) (hr : push_back h l v = .ok () h1 l1) :
    Above h0 h1 l1 ∧ l1.num_nodes = l.num_nodes + 1 ∧ live_nodes h ≤ live_nodes h1 := by
  have hk := take_length_le ha.1
  rcases push_back_spec hr with ⟨-, rfl, rfl⟩ | ⟨-, hs, rfl⟩
  · exact ⟨above_alloc_step ha (ptrGe_none _) (ptrGe_none _) (ptrGe_some hk)
      (ptrGe_some hk) rfl, rfl, by rw [live_alloc]; omega⟩
  · obtain ⟨hab, hlv⟩ := above_alloc_set_next ha ⟨v, l.tail, none⟩
      ⟨l.head, some h.length, l.num_nodes + 1⟩ ha.2.2.1
      (ptrGe_none _) ha.2.2.1 hs ha.2.1 (ptrGe_some hk) rfl
    exact ⟨hab, rfl, hlv⟩

theorem insert_above {T : Type} {h0 h h1 : Heap T} {l l1 : LList} {index : Nat} {v : T}
    (ha : Above h0 h l) (hr : insert h l index v = .ok () h1 l1) :
    Above h0 h1 l1 ∧ l1.num_nodes = l.num_nodes + 1 ∧ live_nodes h ≤ live_nodes h1 := by
  have hk := take_length_le ha.1
  rcases insert_spec hr with ⟨rfl, rfl⟩ | ⟨-, rfl, rfl⟩ | ⟨curr, c, hseek, hc, hcase⟩
  · exact ⟨above_alloc_step ha (ptrGe_none _) (ptrGe_none _) (ptrGe_some hk)
      (ptrGe_some hk) rfl, rfl, by rw [live_alloc]; omega⟩
  · obtain ⟨ht, hh, htl, hcl, hlive⟩ := ha
    exact ⟨⟨ht, hh, htl, hcl, Nat.le_trans hlive (by show _ ≤ l.num_nodes + 1 + _; omega)⟩,
      rfl, Nat.le_refl _⟩
  · have hcurr : PtrGe h0.length (some curr) := seek_ptrGe ha.2.2.2.1 index ha.2.1 hseek
    have hcp := ha.2.2.2.1 curr c (hcurr curr rfl) hc
    rcases hcase with ⟨rfl, rfl⟩ | ⟨hs, rfl⟩ | ⟨hs, rfl⟩
    · exact ⟨above_alloc_step ha (ptrGe_none _) ha.2.1 (ptrGe_some hk) ha.2.2.1 rfl, rfl,
        by rw [live_alloc]; omega⟩
    · obtain ⟨hab, hlv⟩ := above_alloc_set_next ha ⟨v, l.tail, none⟩
        ⟨l.head, some h.length, l.num_nodes + 1⟩ ha.2.2.1
        (ptrGe_none _) ha.2.2.1 hs ha.2.1 (ptrGe_some hk) rfl
      exact ⟨hab, rfl, hlv⟩
    · obtain ⟨hab, hlv⟩ := above_alloc_set_next ha ⟨v, c.prev, some curr⟩
        ⟨l.head, l.tail, l.num_nodes + 1⟩ hcp.1
        hcurr hcp.1 hs ha.2.1 ha.2.2.1 rfl
      exact ⟨hab, rfl, hlv⟩

theorem erase_above {T : Type} [BEq T] {h0 h h1 : Heap T} {l l1 : LList} {v : T}
    (ha : Above h0 h l) (hr : erase h l v = .ok () h1 l1) :
    Above h0 h1 l1 ∧
      ((live_nodes h1 + 1 = live_nodes h ∧ l1.num_nodes + 1 = l.num_nodes) ∨
        (h1 = h ∧ l1 = l)) := by
  rcases erase_spec hr with ⟨rfl, rfl⟩ | ⟨curr, hloop, hu⟩
  · exact ⟨ha, Or.inr ⟨rfl, rfl⟩⟩
  · have hcurr := erase_loop_ptrGe ha.2.2.2.1 v _ ha.2.1 hloop
    obtain ⟨hab, hlv, hnum⟩ := unlink_above ha (hcurr curr rfl) hu
    exact ⟨hab, Or.inl ⟨hlv, hnum⟩⟩

theorem erase_index_above {T : Type} {h0 h h1 : Heap T} {l l1 : LList} {i : Nat}
    (ha : Above h0 h l) (hr : erase_index h l i = .ok () h1 l1) :
    Above h0 h1 l1 ∧
      ((live_nodes h1 + 1 = live_nodes h ∧ l1.num_nodes + 1 = l.num_nodes) ∨
        (h1 = h ∧ l1 = l)) := by
  rcases erase_index_spec hr with ⟨rfl, rfl⟩ | ⟨curr, hseek, hu⟩
  · exact ⟨ha, Or.inr ⟨rfl, rfl⟩⟩
  · have hcurr := seek_ptrGe ha.2.2.2.1 i ha.2.1 hseek
    obtain ⟨hab, hlv, hnum⟩ := unlink_above ha (hcurr curr rfl) hu
    exact ⟨hab, Or.inl ⟨hlv, hnum⟩⟩

end rcd

namespace rcd

/-! ## Runs of calls -/

theorem unlink_not_out_of_range {T : Type} (h h1 : Heap T) (l l1 : LList) (curr : Nat) :
    unlink h l curr ≠ .out_of_range h1 l1 := by
  intro hu
  unfold unlink at hu
  split at hu
  · exact Outcome.noConfusion hu
  · simp only at hu
    split at hu
    · exact Outcome.noConfusion hu
    · split at hu
      · exact Outcome.noConfusion hu
      · split at hu
        · exact Outcome.noConfusion hu
        · exact Outcome.noConfusion hu

theorem call_out_of_range {T : Type} [BEq T] (c : Call T) {h h1 : Heap T} {l l1 : LList}
    (hr : c.run h l = .out_of_range h1 l1) : h1 = h ∧ l1 = l := by
  cases c with
  | push_front v =>
    simp only [Call.run] at hr
    by_cases hn : l.num_nodes = 0
    · rw [push_front_empty h l v hn] at hr
      exact Outcome.noConfusion hr
    · rw [push_front_nonempty h l v hn] at hr
      exact Outcome.noConfusion hr
  | push_back v =>
    simp only [Call.run, push_back] at hr
    repeat' split at hr
    all_goals exact Outcome.noConfusion hr
  | insert index v =>
    simp only [Call.run] at hr
    by_cases hi : index < l.num_nodes
    · exact absurd hr (insert_in_range h l index v hi h1 l1)
    · by_cases h0 : l.num_nodes = 0 ∧ index = 0
      · obtain ⟨hn, rfl⟩ := h0
        rw [insert_empty h l v hn] at hr
        exact Outcome.noConfusion hr
      · rw [insert_out_of_range h l index v (Nat.le_of_not_lt hi) h0] at hr
        cases hr
        exact ⟨rfl, rfl⟩
  | erase v =>
    simp only [Call.run, erase] at hr
    split at hr
    · rename_i f _
      cases f <;> exact Outcome.noConfusion hr
    · exact Outcome.noConfusion hr
    · exact absurd hr (unlink_not_out_of_range _ _ _ _ _)
  | erase_index i =>
    simp only [Call.run] at hr
    by_cases hi : i < l.num_nodes
    · simp only [erase_index, check_range_ok h l hi] at hr
      split at hr
      · exact Outcome.noConfusion hr
      · exact Outcome.noConfusion hr
      · exact absurd hr (unlink_not_out_of_range _ _ _ _ _)
    · simp only [erase_index, check_range_fail h l (Nat.le_of_not_lt hi)] at hr
      cases hr
      exact ⟨rfl, rfl⟩

theorem call_above {T : Type} [BEq T] (c : Call T) {h0 h h1 : Heap T} {l l1 : LList}
    (ha : Above h0 h l) (hr : c.run h l = .ok () h1 l1) :
    Above h0 h1 l1 ∧
      (c.inserts = true → l1.num_nodes = l.num_nodes + 1 ∧ live_nodes h ≤ live_nodes h1) ∧
      (c.inserts = false →
        (live_nodes h1 + 1 = live_nodes h ∧ l1.num_nodes + 1 = l.num_nodes) ∨
          (h1 = h ∧ l1 = l)) := by
  cases c with
  | push_front v =>
    obtain ⟨a, b, d⟩ := push_front_above ha hr
    exact ⟨a, fun _ => ⟨b, d⟩, fun e => Bool.noConfusion e⟩
  | push_back v =>
    obtain ⟨a, b, d⟩ := push_back_above ha hr
    exact ⟨a, fun _ => ⟨b, d⟩, fun e => Bool.noConfusion e⟩
  | insert index v =>
    obtain ⟨a, b, d⟩ := insert_above ha hr
    exact ⟨a, fun _ => ⟨b, d⟩, fun e => Bool.noConfusion e⟩
  | erase v =>
    obtain ⟨a, b⟩ := erase_above ha hr
    exact ⟨a, fun e => Bool.noConfusion e, fun _ => b⟩
  | erase_index i =>
    obtain ⟨a, b⟩ := erase_index_above ha hr
    exact ⟨a, fun e => Bool.noConfusion e, fun _ => b⟩

theorem run_calls_above {T : Type} [BEq T] (calls : List (Call T)) {h0 h h1 : Heap T}
    {l l1 : LList} (ha : Above h0 h l) (hr : run_calls calls h l = .ok () h1 l1) :
    Above h0 h1 l1 ∧
      l1.num_nodes + (tally calls h l).2 = l.num_nodes + (tally calls h l).1 := by
  induction calls generalizing h l with
  | nil =>
    simp only [run_calls] at hr
    cases hr
    exact ⟨ha, rfl⟩
  | cons c cs ih =>
    cases hc : c.run h l with
    | ok u h2 l2 =>
      simp only [run_calls, hc] at hr
      obtain ⟨ha2, hins, hrem⟩ := call_above c ha hc
      obtain ⟨ha1, hsum⟩ := ih ha2 hr
      refine ⟨ha1, ?_⟩
      simp only [tally, hc]
      cases hci : c.inserts
      · rcases hrem hci with ⟨hlv, hnum⟩ | ⟨rfl, rfl⟩
        · have hlt : live_nodes h2 < live_nodes h := by omega
          simp only [hlt, if_true, Bool.false_eq_true, if_false]
          omega
        · simp only [Nat.lt_irrefl, if_false, Bool.false_eq_true]
          omega
      · obtain ⟨hnum, hlv⟩ := hins hci
        have hlt : ¬ live_nodes h2 < live_nodes h := by omega
        simp only [hlt, if_false, if_true]
        omega
    | out_of_range h2 l2 =>
      simp only [run_calls, hc] at hr
      obtain ⟨rfl, rfl⟩ := call_out_of_range c hc
      simp only [tally, hc]
      exact ih ha hr
    | undefined =>
      simp only [run_calls, hc] at hr
      exact Outcome.noConfusion hr
    | diverges =>
      simp only [run_calls, hc] at hr
      exact Outcome.noConfusion hr

theorem above_new {T : Type} (h0 : Heap T) : Above h0 h0 LList.new := by
  refine ⟨List.take_length h0, ptrGe_none _, ptrGe_none _, ?_, ?_⟩
  · intro a n hka hd
    exact absurd (deref_lt hd) (Nat.not_lt.2 hka)
  · show live_nodes h0 ≤ 0 + live_nodes h0
    omega

theorem last_addr_of_ne_nil {T : Type} {cells : List (Nat × T)} (hne : cells ≠ [])
    (p q : Option Nat) : last_addr cells p = last_addr cells q := by
  cases cells with
  | nil => exact absurd rfl hne
  | cons c rest => rfl

theorem run_pushes {T : Type} [BEq T] (calls : List (Call T))
    (hp : ∀ c ∈ calls, c.pushes = true) {h : Heap T} {l : LList} {cells : List (Nat × T)}
    (hc : Chain h l cells) (ht : cells ≠ [] → l.tail = last_addr cells none)
    (hn : l.num_nodes = cells.length) :
    ∃ h1 l1, run_calls calls h l = .ok () h1 l1 ∧
      l1.num_nodes = l.num_nodes + calls.length := by
  induction calls generalizing h l cells with
  | nil => exact ⟨h, l, rfl, rfl⟩
  | cons c cs ih =>
    have hz : l.num_nodes = 0 ↔ cells = [] := by
      rw [hn]; exact List.length_eq_zero
    have hcs : ∀ d ∈ cs, d.pushes = true := fun d hd => hp d (List.mem_cons_of_mem _ hd)
    have hcp := hp c (List.mem_cons_self _ _)
    cases c with
    | push_front v =>
      obtain ⟨h2, l2, hrun, hch, hnum, ht0, ht1⟩ := push_front_chain hc hz v
      have htail : (h.length, v) :: cells ≠ [] →
          l2.tail = last_addr ((h.length, v) :: cells) none := by
        intro _
        by_cases hnil : cells = []
        · rw [ht0 hnil, hnil]; rfl
        · rw [ht1 hnil, ht hnil, last_addr_cons]
          exact last_addr_of_ne_nil hnil _ _
      obtain ⟨h1, l1, hr1, hn1⟩ := ih hcs hch htail (by rw [hnum, hn]; rfl)
      refine ⟨h1, l1, ?_, ?_⟩
      · simp only [run_calls, Call.run, hrun]
        exact hr1
      · rw [hn1, hnum, List.length_cons]; omega
    | push_back v =>
      obtain ⟨h2, l2, hrun, hch, hnum, ht2⟩ := push_back_chain hc ht hz v
      have htail : cells ++ [(h.length, v)] ≠ [] →
          l2.tail = last_addr (cells ++ [(h.length, v)]) none := by
        intro _
        rw [ht2, last_addr_append]; rfl
      obtain ⟨h1, l1, hr1, hn1⟩ := ih hcs hch htail (by rw [hnum, hn]; simp)
      refine ⟨h1, l1, ?_, ?_⟩
      · simp only [run_calls, Call.run, hrun]
        exact hr1
      · rw [hn1, hnum, List.length_cons]; omega
    | insert i v => exact Bool.noConfusion hcp
    | erase v => exact Bool.noConfusion hcp
    | erase_index i => exact Bool.noConfusion hcp

end rcd

namespace rcd

/-! ## `push_back` on a well-formed list -/

theorem wf_nil {T : Type} (h : Heap T) : WellFormed h LList.new ([] : List (Nat × T)) :=
  ⟨rfl, rfl, rfl, List.nodup_nil, trivial⟩

theorem wf_nil_eq {T : Type} {h : Heap T} {l : LList}
    (hw : WellFormed h l ([] : List (Nat × T))) : l = LList.new := by
  obtain ⟨hh, ht, hn, -, -⟩ := hw
  cases l
  simp only [first_addr_nil, last_addr_nil, List.length_nil] at hh ht hn
  simp only [LList.new, LList.mk.injEq]
  exact ⟨hh, ht, hn⟩

theorem push_back_wf {T : Type} {h : Heap T} {l : LList} {cells : List (Nat × T)}
    (hw : WellFormed h l cells) (v : T) :
    ∃ h1 l1, push_back h l v = .ok () h1 l1 ∧
      WellFormed h1 l1 (cells ++ [(h.length, v)]) ∧ h1.length = h.length + 1 ∧
      ∀ a, a < h.length → (∀ c ∈ cells, c.1 ≠ a) →
        h1.deref (some a) = h.deref (some a) := by
  obtain ⟨hhead, htail, hnum, hnd, hds⟩ := hw
  have hlts := seg_addr_lt (dseg_seg hds)
  have hnd1 : ((cells ++ [(h.length, v)]).map Prod.fst).Nodup := by
    rw [List.map_append, List.nodup_append]
    refine ⟨hnd, by simp, ?_⟩
    intro a ha hb
    obtain ⟨c, hc, rfl⟩ := List.mem_map.1 ha
    simp only [List.map_cons, List.map_nil, List.mem_singleton] at hb
    exact absurd (hlts c hc) (by omega)
  rcases List.eq_nil_or_concat cells with e | ⟨pre, lc, e⟩
  · subst e
    refine ⟨_, _, push_back_empty h l v hnum, ⟨rfl, rfl, by simp [hnum], hnd1, ?_, trivial⟩,
      by simp [Heap.alloc], fun a ha _ => deref_alloc_of_lt h _ ha⟩
    exact deref_alloc_fresh h _
  · rw [List.concat_eq_append] at e
    subst e
    have hn0 : l.num_nodes ≠ 0 := by simp [hnum]
    have htl : l.tail = some lc.1 := by rw [htail, last_addr_append]; rfl
    obtain ⟨hpre, hlc, -⟩ := dseg_append.1 hds
    have hlclt := deref_lt hlc
    obtain ⟨hprelc, -, -, -, -⟩ := @nodup_split T pre [] lc hnd
    have hframe : ∀ a, a < h.length → a ≠ lc.1 → ∀ X, Heap.deref
        ((h.alloc ⟨v, some lc.1, none⟩).set lc.1 X) (some a) = h.deref (some a) := by
      intro a halt hne X
      rw [deref_set_ne _ _ (Ne.symm hne), deref_alloc_of_lt _ _ halt]
    refine ⟨_, _, push_back_nonempty v hn0 htl hlc, ⟨?_, ?_, by simp [hnum], hnd1, ?_⟩,
      by simp [Heap.alloc], fun a ha hne => hframe a ha (fun e => hne lc (by simp) e.symm) _⟩
    · simpa [first_addr_append] using hhead
    · simp [last_addr_append]
    · rw [dseg_append, dseg_append]
      refine ⟨⟨dseg_frame (fun d hd => ?_) hpre, ?_, trivial⟩, ?_, trivial⟩
      · exact hframe d.1 (hlts d (by simp [hd])) (hprelc d hd) _
      · rw [deref_set_eq _ _ (by simp [Heap.alloc]; omega)]
        rfl
      · rw [last_addr_append]
        show Heap.deref _ (some h.length) = _
        rw [deref_set_ne _ _ (Nat.ne_of_lt hlclt), deref_alloc_fresh]
        rfl

end rcd

namespace rcd

/-! ## Copying -/

theorem copy_loop_wf {T : Type} (src : List (Nat × T)) :
    ∀ (fuel : Nat) (h : Heap T) (l : LList) (dcells : List (Nat × T)),
      Seg h src none → WellFormed h l dcells →
      (∀ s ∈ src, ∀ d ∈ dcells, d.1 ≠ s.1) → src.length ≤ fuel →
      ∃ h1 l1 ncells, copy_loop fuel h l (first_addr src none) = .ok () h1 l1 ∧
        WellFormed h1 l1 (dcells ++ ncells) ∧ ncells.map Prod.snd = src.map Prod.snd ∧
        h.length ≤ h1.length ∧ (∀ c ∈ ncells, h.length ≤ c.1) ∧
        ∀ a, a < h.length → (∀ d ∈ dcells, d.1 ≠ a) →
          h1.deref (some a) = h.deref (some a) := by
  induction src with
  | nil =>
    intro fuel h l dcells _ hw _ _
    refine ⟨h, l, [], ?_, by simpa using hw, rfl, Nat.le_refl _, by simp, fun _ _ _ => rfl⟩
    cases fuel <;> rfl
  | cons s rest ih =>
    intro fuel h l dcells hseg hw hdis hfuel
    obtain ⟨⟨n, hn, hdat, hnx⟩, hrest⟩ := hseg
    cases fuel with
    | zero => simp at hfuel
    | succ fuel =>
      obtain ⟨h2, l2, hpb, hw2, hlen2, hfr2⟩ := push_back_wf hw n.data
      have hslt := deref_lt hn
      have hn2 : h2.deref (some s.1) = some n := by
        rw [hfr2 s.1 hslt (fun d hd => hdis s (List.mem_cons_self _ _) d hd), hn]
      have hrlt := seg_addr_lt hrest
      have hseg2 : Seg h2 rest none :=
        seg_frame (fun r hr => hfr2 r.1 (hrlt r hr)
          (fun d hd => hdis r (List.mem_cons_of_mem _ hr) d hd)) hrest
      have hdis2 : ∀ r ∈ rest, ∀ d ∈ dcells ++ [(h.length, n.data)], d.1 ≠ r.1 := by
        intro r hr d hd
        rcases List.mem_append.1 hd with hd | hd
        · exact hdis r (List.mem_cons_of_mem _ hr) d hd
        · simp only [List.mem_singleton] at hd
          subst hd
          exact Nat.ne_of_gt (hrlt r hr)
      obtain ⟨h1, l1, ncells, hcopy, hw1, hmap, hlen1, hge, hfr1⟩ :=
        ih fuel h2 l2 (dcells ++ [(h.length, n.data)]) hseg2 hw2 hdis2 (by simpa using hfuel)
      refine ⟨h1, l1, (h.length, n.data) :: ncells, ?_, ?_, ?_, by omega, ?_, ?_⟩
      · simp only [first_addr_cons, copy_loop, hn, hpb, hn2, hnx]
        exact hcopy
      · simpa using hw1
      · simp only [List.map_cons, hmap, hdat]
      · intro c hc
        rcases List.mem_cons.1 hc with rfl | hc
        · exact Nat.le_refl _
        · have := hge c hc
          omega
      · intro a ha hne
        rw [hfr1 a (by omega) (fun d hd => ?_), hfr2 a ha hne]
        rcases List.mem_append.1 hd with hd | hd
        · exact hne d hd
        · simp only [List.mem_singleton] at hd
          subst hd
          exact Nat.ne_of_gt ha

theorem copy_nodes_new {T : Type} {h : Heap T} {s : LList} {cells : List (Nat × T)}
    (hc : Chain h s cells) :
    ∃ h1 c ncells, copy_nodes h LList.new s = .ok () h1 c ∧ WellFormed h1 c ncells ∧
      ncells.map Prod.snd = cells.map Prod.snd ∧ h.length ≤ h1.length ∧
      (∀ d ∈ ncells, h.length ≤ d.1) ∧
      ∀ a, a < h.length → h1.deref (some a) = h.deref (some a) := by
  obtain ⟨h1, c, ncells, hcopy, hw, hmap, hlen, hge, hfr⟩ :=
    copy_loop_wf cells (h.length + 1) h LList.new [] hc.2 (wf_nil h)
      (fun _ _ d hd => absurd hd (List.not_mem_nil d))
      (Nat.le_succ_of_le (chain_length_le hc))
  refine ⟨h1, c, ncells, ?_, by simpa using hw, hmap, hlen, hge,
    fun a ha => hfr a ha (fun d hd => absurd hd (List.not_mem_nil d))⟩
  rw [copy_nodes, hc.1]
  exact hcopy

end rcd

namespace rcd

/-! ## What `erase` leaves alone, and teardown -/

theorem unlink_frame {T : Type} {h h3 : Heap T} {l l3 : LList} {curr : Nat}
    (hu : unlink h l curr = .ok () h3 l3) :
    ∃ c, h.deref (some curr) = some c ∧ h3.length = h.length ∧
      h3.deref (some curr) = none ∧
      ∀ a, a ≠ curr → c.prev ≠ some a → c.next ≠ some a →
        h3.deref (some a) = h.deref (some a) := by
  obtain ⟨c, h1, l1, c1, h2, l2, hc, hs1, hc1, hs2, rfl, -⟩ := unlink_spec hu
  have hclt := deref_lt hc
  -- the first step leaves `curr` as it was
  have h1facts : h1.length = h.length ∧ c1 = c ∧
      ∀ a, c.prev ≠ some a → h1.deref (some a) = h.deref (some a) := by
    rcases hs1 with ⟨-, rfl, -⟩ | ⟨-, hs, -⟩
    · rw [hc] at hc1
      exact ⟨rfl, (Option.some.inj hc1).symm, fun _ _ => rfl⟩
    · obtain ⟨pa, n, hpa, hn, rfl⟩ := set_next_spec hs
      refine ⟨List.length_set _ _ _, ?_, fun a hne => ?_⟩
      · by_cases hpc : pa = curr
        · subst hpc
          rw [hc] at hn
          cases hn
          rw [deref_set_eq _ _ hclt] at hc1
          exact (Option.some.inj hc1).symm
        · rw [deref_set_ne _ _ hpc, hc] at hc1
          exact (Option.some.inj hc1).symm
      · rw [deref_set_ne _ _ (fun e => hne (by rw [hpa, e]))]
  obtain ⟨hlen1, rfl, hfr1⟩ := h1facts
  have h2facts : h2.length = h1.length ∧
      ∀ a, c1.next ≠ some a → h2.deref (some a) = h1.deref (some a) := by
    rcases hs2 with ⟨-, rfl, -⟩ | ⟨-, hs, -⟩
    · exact ⟨rfl, fun _ _ => rfl⟩
    · obtain ⟨sa, n, hsa, hn, rfl⟩ := set_prev_spec hs
      exact ⟨List.length_set _ _ _,
        fun a hne => deref_set_ne _ _ (fun e => hne (by rw [hsa, e]))⟩
  obtain ⟨hlen2, hfr2⟩ := h2facts
  refine ⟨c1, hc, ?_, ?_, fun a hac hp hn => ?_⟩
  · rw [Heap.free, List.length_set, hlen2, hlen1]
  · rw [Heap.free, deref_set_eq _ _ (by omega)]
  · rw [Heap.free, deref_set_ne _ _ (Ne.symm hac), hfr2 a hn, hfr1 a hp]

theorem last_addr_mem {T : Type} {cells : List (Nat × T)} {a : Nat}
    (hl : last_addr cells none = some a) : ∃ c ∈ cells, c.1 = a := by
  rcases List.eq_nil_or_concat cells with e | ⟨pre, lc, e⟩
  · subst e
    simp at hl
  · rw [List.concat_eq_append] at e
    subst e
    rw [last_addr_append] at hl
    exact ⟨lc, by simp, Option.some.inj hl⟩

theorem first_addr_mem {T : Type} {cells : List (Nat × T)} {a : Nat}
    (hf : first_addr cells none = some a) : ∃ c ∈ cells, c.1 = a := by
  cases cells with
  | nil => simp at hf
  | cons c rest => exact ⟨c, by simp, Option.some.inj hf⟩

theorem erase_index_wf_frame {T : Type} {h : Heap T} {l : LList}
    {cells : List (Nat × T)} (hw : WellFormed h l cells) {i : Nat}
    (hi : i < cells.length) :
    ∃ h1 l1, erase_index h l i = .ok () h1 l1 ∧ WellFormed h1 l1 (cells.eraseIdx i) ∧
      h1.length = h.length ∧ h1.deref (some cells[i].1) = none ∧
      ∀ a, (∀ c ∈ cells, c.1 ≠ a) → h1.deref (some a) = h.deref (some a) := by
  obtain ⟨h1, l1, he, hw1⟩ := erase_index_wf hw hi
  have hdrop : cells.drop i = cells[i] :: cells.drop (i + 1) := List.drop_eq_getElem_cons hi
  have hsplit : cells = cells.take i ++ cells[i] :: cells.drop (i + 1) := by
    rw [← hdrop, List.take_append_drop]
  have hseek : seek h i l.head = some (some cells[i].1) := by
    rw [hw.1, seek_seg (dseg_seg hw.2.2.2.2), hdrop]; rfl
  have hu : unlink h l cells[i].1 = .ok () h1 l1 := by
    simp only [erase_index, check_range_ok h l (hw.2.2.1 ▸ hi), hseek] at he
    exact he
  obtain ⟨c, hc, hlen, hnone, hfr⟩ := unlink_frame hu
  have hds := hw.2.2.2.2
  rw [hsplit] at hds
  obtain ⟨-, hnode, -⟩ := dseg_append.1 hds
  rw [hnode] at hc
  cases hc
  refine ⟨h1, l1, he, hw1, hlen, hnone, fun a hne => hfr a ?_ ?_ ?_⟩
  · exact fun e => hne cells[i] (List.getElem_mem _) e.symm
  · intro hp
    obtain ⟨d, hd, hda⟩ := last_addr_mem hp
    exact hne d (List.mem_of_mem_take hd) hda
  · intro hn
    obtain ⟨d, hd, hda⟩ := first_addr_mem hn
    exact hne d (List.mem_of_mem_drop hd) hda

theorem destroy_loop_wf {T : Type} [BEq T] (cells : List (Nat × T)) :
    ∀ (h : Heap T) (l : LList), WellFormed h l cells →
      ∃ h1, destroy_loop none cells.length h l = .ok () h1 LList.new ∧
        h1.length = h.length ∧ (∀ c ∈ cells, h1.deref (some c.1) = none) ∧
        ∀ a, (∀ c ∈ cells, c.1 ≠ a) → h1.deref (some a) = h.deref (some a) := by
  induction cells with
  | nil =>
    intro h l hw
    have hl := wf_nil_eq hw
    subst hl
    refine ⟨h, ?_, rfl, by simp, fun _ _ => rfl⟩
    unfold destroy_loop
    rfl
  | cons c rest ih =>
    intro h l hw
    obtain ⟨h2, l2, he, hw2, hlen2, hnone2, hfr2⟩ :=
      erase_index_wf_frame hw (Nat.succ_pos rest.length)
    simp only [List.eraseIdx_cons_zero] at hw2
    obtain ⟨h1, hd, hlen1, hnone1, hfr1⟩ := ih h2 l2 hw2
    have hne : l.empty = false := by simp [LList.empty, hw.2.2.1]
    obtain ⟨-, hcrest, -, -, -⟩ := @nodup_split T [] rest c hw.2.2.2.1
    refine ⟨h1, ?_, by omega, ?_, fun a ha => ?_⟩
    · unfold destroy_loop
      simp only [hne, Bool.false_eq_true, if_false, List.length_cons, erase_zero, he]
      exact hd
    · intro d hd
      rcases List.mem_cons.1 hd with rfl | hd
      · rw [hfr1 d.1 (fun r hr => hcrest r hr)]
        exact hnone2
      · exact hnone1 d hd
    · rw [hfr1 a (fun r hr => ha r (List.mem_cons_of_mem _ hr)), hfr2 a ha]

theorem destroy_list_wf {T : Type} [BEq T] {h : Heap T} {l : LList}
    {cells : List (Nat × T)} (hw : WellFormed h l cells) :
    ∃ h1, destroy_list none h l = .ok () h1 LList.new ∧
      h1.length = h.length ∧ (∀ c ∈ cells, h1.deref (some c.1) = none) ∧
      ∀ a, (∀ c ∈ cells, c.1 ≠ a) → h1.deref (some a) = h.deref (some a) := by
  rw [destroy_list, hw.2.2.1]
  exact destroy_loop_wf cells h l hw

end rcd

namespace rcd

/-! ## The copy lives above the heap it was made in -/

theorem copy_loop_above {T : Type} {h0 : Heap T} (fuel : Nat) :
    ∀ (h h1 : Heap T) (l l1 : LList) (p : Option Nat), Above h0 h l →
      copy_loop fuel h l p = .ok () h1 l1 → Above h0 h1 l1 := by
  induction fuel with
  | zero =>
    intro h h1 l l1 p ha hr
    cases p with
    | none =>
      simp only [copy_loop] at hr
      cases hr
      exact ha
    | some a => exact Outcome.noConfusion hr
  | succ fuel ih =>
    intro h h1 l l1 p ha hr
    cases p with
    | none =>
      simp only [copy_loop] at hr
      cases hr
      exact ha
    | some a =>
      simp only [copy_loop] at hr
      split at hr
      · exact Outcome.noConfusion hr
      · rename_i n hn
        split at hr
        · rename_i u h2 l2 hpb
          split at hr
          · exact Outcome.noConfusion hr
          · exact ih h2 h1 l2 l1 _ (push_back_above ha hpb).1 hr
        · exact Outcome.noConfusion hr
        · exact Outcome.noConfusion hr
        · exact Outcome.noConfusion hr

theorem deref_of_take {T : Type} {h0 h : Heap T} (ht : h.take h0.length = h0) {a : Nat}
    (ha : a < h0.length) : h.deref (some a) = h0.deref (some a) := by
  have : h0[a]? = h[a]? := by
    conv_lhs => rw [← ht]
    rw [List.getElem?_take, if_pos ha]
  simp only [Heap.deref, this]

theorem chain_of_take {T : Type} {h0 h : Heap T} {s : LList} {cells : List (Nat × T)}
    (ht : h.take h0.length = h0) (hc : Chain h0 s cells) : Chain h s cells :=
  ⟨hc.1, seg_frame (fun c hcm => deref_of_take ht (seg_addr_lt hc.2 c hcm)) hc.2⟩

theorem wf_frame {T : Type} {h h1 : Heap T} {l : LList} {cells : List (Nat × T)}
    (hw : WellFormed h l cells)
    (hf : ∀ c ∈ cells, h1.deref (some c.1) = h.deref (some c.1)) :
    WellFormed h1 l cells :=
  ⟨hw.1, hw.2.1, hw.2.2.1, hw.2.2.2.1, dseg_frame hf hw.2.2.2.2⟩

theorem wf_size {T : Type} {h h1 : Heap T} {l l1 : LList} {cells ncells : List (Nat × T)}
    (hw : WellFormed h l cells) (hw1 : WellFormed h1 l1 ncells)
    (hmap : ncells.map Prod.snd = cells.map Prod.snd) : l1.size = l.size := by
  have := congrArg List.length hmap
  simp only [List.length_map] at this
  rw [LList.size, LList.size, hw.2.2.1, hw1.2.2.1, this]

end rcd

namespace rcd

/-! ## The claims, continued -/

/-- What holds of the runs that return.  Take any heap, a list object as made
by the default constructor, and a sequence of fewer than 2^64 calls of
`push_front`, `push_back`, `insert`, `erase(value)`, `erase(index)` on it.
If the run returns, `size()` plus the number of `erase` calls that removed a
node equals the number of `push_front`, `push_back` and `insert` calls that
returned without an error.  A run of `push_back` and `push_front` calls alone
always returns, with `size()` the number of calls. -/
theorem returning_run_size {T : Type} [BEq T] (h0 : Heap T) (calls : List (Call T))
    (_hlen : calls.length < SIZE_MAX) :
    (∀ h1 l1, run_calls calls h0 LList.new = .ok () h1 l1 →
      l1.size + (tally calls h0 LList.new).2 = (tally calls h0 LList.new).1) ∧
    ((∀ c ∈ calls, c.pushes = true) →
      ∃ h1 l1, run_calls calls h0 LList.new = .ok () h1 l1 ∧ l1.size = calls.length) := by
  refine ⟨fun h1 l1 hr => ?_, fun hp => ?_⟩
  · have := (run_calls_above calls (above_new h0) hr).2
    simpa [LList.new, LList.size] using this
  · obtain ⟨h1, l1, hr, hn⟩ :=
      @run_pushes T _ calls hp h0 LList.new [] ⟨rfl, trivial⟩ (fun e => absurd rfl e) rfl
    exact ⟨h1, l1, hr, by simpa [LList.new, LList.size] using hn⟩

/-- C11 at its failing input.  On an empty list in an empty heap the calls
`push_back(1)`, `push_front(2)`, `erase(1)` (by index) return normally, with
two insertions, one removal and `size() = 1`; they leave `tail` null with
`num_nodes = 1`, so the next call `push_back(3)` writes through the null
`tail`: the run of the four calls has undefined behaviour and there is no
`size()` afterwards (the claim gives 3 - 1 = 2). -/
theorem C11_run_reaches_undefined :
    run_calls [.push_back 1, .push_front 2, .erase_index 1] ([] : Heap Nat) LList.new =
      .ok () lost_heap lost_list ∧
    tally [Call.push_back 1, .push_front 2, .erase_index 1] ([] : Heap Nat) LList.new =
      (2, 1) ∧
    lost_list.size = 1 ∧ lost_list.tail = none ∧
    push_back lost_heap lost_list 3 = .undefined ∧
    run_calls [.push_back 1, .push_front 2, .erase_index 1, .push_back 3] ([] : Heap Nat)
      LList.new = .undefined :=
  ⟨by decide, by decide, rfl, rfl, by decide, by decide⟩

/-- C12.  For every list whose `next` links from `head` reach the element
sequence `e1`, ..., `en` and then null, `operator<<` writes `"< "`, then the
renderings of `e1`, ..., `en` joined by `", "` with no separator after `en`
(`joined`, which is `String.intercalate`), then `" >"`; with no element the
text is `"<  >"`.  The list of `main` after line 24 renders as
`< Hello, There, World >` and has size 3. -/
theorem C12_render {T : Type} (show_data : T → String) (h : Heap T) (l : LList)
    (cells : List (Nat × T)) (hc : Chain h l cells) :
    render show_data h l =
      .ok ("< " ++ joined ((cells.map Prod.snd).map show_data) ++ " >") ∧
    joined ((cells.map Prod.snd).map show_data) =
      ", ".intercalate ((cells.map Prod.snd).map show_data) ∧
    (cells = [] → render show_data h l = .ok "<  >") ∧
    (main_str_list = some (str_heap, str_list) ∧
      render id str_heap str_list = .ok "< Hello, There, World >" ∧
      str_list.size = 3) := by
  refine ⟨render_chain show_data hc, joined_eq_intercalate _, fun e => ?_, rfl, rfl, rfl⟩
  rw [render_chain show_data hc, e]
  rfl

/-- Witness of C12 on the list built by `push_back(10)`, `push_back(20)`,
`push_back(30)`, elements rendered in decimal. -/
theorem C12_render_witness :
    Chain three_heap three_list [(0, 10), (1, 20), (2, 30)] ∧
    render (fun n : Nat => toString n) three_heap three_list =
      .ok ("< " ++ joined (([10, 20, 30] : List Nat).map fun n => toString n) ++ " >") :=
  ⟨wf_chain three_wf,
    (C12_render (fun n : Nat => toString n) three_heap three_list _ (wf_chain three_wf)).1⟩

/-- Copy construction from a list `s` that satisfies the data-model
invariants returns a list with the element sequence and the `size()` of `s`
that satisfies the invariants, and leaves `s` as it was. -/
theorem copy_construct_wf {T : Type} (h : Heap T) (s : LList) (cells : List (Nat × T))
    (hw : WellFormed h s cells) :
    ∃ h1 c ncells, copy_construct h s = .ok () h1 c ∧ WellFormed h1 c ncells ∧
      elements h1 c = .ok (cells.map Prod.snd) ∧ c.size = s.size ∧
      WellFormed h1 s cells := by
  have hlts := seg_addr_lt (dseg_seg hw.2.2.2.2)
  obtain ⟨h1, c, ncells, hcopy, hw1, hmap, -, -, hfr⟩ := copy_nodes_new (wf_chain hw)
  refine ⟨h1, c, ncells, hcopy, hw1, ?_, wf_size hw hw1 hmap,
    wf_frame hw (fun x hx => hfr x.1 (hlts x hx))⟩
  rw [elements_chain (wf_chain hw1), hmap]

/-- Copy assignment for an element type where `erase(0)` erases by index
(`zero = none`, see `erase_zero`): assigning a well-formed `s` to another
well-formed list `d` that shares no node with it returns a well-formed list
with the element sequence and size of `s`, whatever `d` held; every old node
of `d` has been deleted, and `s` is as it was. -/
theorem assign_by_index_wf {T : Type} [BEq T] (h : Heap T) (s : LList)
    (cells : List (Nat × T)) (hw : WellFormed h s cells) (d : LList)
    (dcells : List (Nat × T)) (hwd : WellFormed h d dcells)
    (hdis : ∀ x ∈ dcells, ∀ y ∈ cells, x.1 ≠ y.1) :
    ∃ h1 c ncells, assign none h d s false = .ok () h1 c ∧ WellFormed h1 c ncells ∧
      elements h1 c = .ok (cells.map Prod.snd) ∧ c.size = s.size ∧
      (∀ x ∈ dcells, h1.deref (some x.1) = none) ∧ WellFormed h1 s cells := by
  have hlts := seg_addr_lt (dseg_seg hw.2.2.2.2)
  obtain ⟨h1, hdes, hlen1, hnone, hfr1⟩ := destroy_list_wf hwd
  have hws1 : WellFormed h1 s cells :=
    wf_frame hw (fun y hy => hfr1 y.1 (fun x hx => hdis x hx y hy))
  obtain ⟨h2, c, ncells, hcopy, hw2, hmap, -, -, hfr2⟩ := copy_nodes_new (wf_chain hws1)
  have hdlts := seg_addr_lt (dseg_seg hwd.2.2.2.2)
  refine ⟨h2, c, ncells, ?_, hw2, ?_, wf_size hw hw2 hmap, fun x hx => ?_,
    wf_frame hws1 (fun y hy => hfr2 y.1 (by rw [hlen1]; exact hlts y hy))⟩
  · simp only [assign, Bool.false_eq_true, if_false, hdes]
    exact hcopy
  · rw [elements_chain (wf_chain hw2), hmap]
  · rw [hfr2 x.1 (by rw [hlen1]; exact hdlts x hx)]
    exact hnone x hx

/-- C13 at its failing input.  `int_heap` holds two `List<int>` objects that
satisfy the invariants and share no node, one with 10, 20, 30 and one with 7.
For `T = int` the call `erase(0)` of `destroy_list` erases by value; no element
is 0, so it returns without changing anything, the loop of `destroy_list` never
ends whatever the number of rounds, and the assignment of the second list to
the first never returns.  With the by-index member in its place the same
assignment returns a list with the one element 7. -/
theorem C13_assign_int_list_never_returns :
    WellFormed int_heap int_list [(0, 10), (1, 20), (2, 30)] ∧
    WellFormed int_heap int_other [(3, 7)] ∧
    erase_zero (some 0) int_heap int_list = .ok () int_heap int_list ∧
    (∀ fuel, destroy_loop (some 0) fuel int_heap int_list = .diverges) ∧
    destroy_list (some 0) int_heap int_list = .diverges ∧
    assign (some 0) int_heap int_list int_other false = .diverges ∧
    ∃ h1 c, assign none int_heap int_list int_other false = .ok () h1 c ∧
      elements h1 c = .ok [7] ∧ c.size = 1 := by
  have he : erase_zero (some 0) int_heap int_list = .ok () int_heap int_list := by decide
  have hloop : ∀ fuel, destroy_loop (some 0) fuel int_heap int_list = .diverges := by
    intro fuel
    induction fuel with
    | zero => decide
    | succ fuel ih =>
      unfold destroy_loop
      simp only [he, ih]
      rfl
  refine ⟨⟨rfl, rfl, rfl, by decide, rfl, rfl, rfl, trivial⟩,
    ⟨rfl, rfl, rfl, by decide, rfl, trivial⟩, he, hloop, hloop _, ?_, _, _, rfl, rfl, rfl⟩
  simp only [assign, Bool.false_eq_true, if_false, destroy_list, hloop]

/-- C14.  For every list `s` whose `next` links from `head` reach an element
sequence and then null, the copy constructor returns a copy, and after any
finite sequence of mutator calls on the copy that returns: the heap as it was
before the copy is unchanged (so every node of `s` has its data and links, and
`s` has its element sequence; the list object `s` itself is never passed to a
call on the copy), and neither the copy's list object nor any node allocated
since points to a node that existed before the copy. -/
theorem C14_copy_independent {T : Type} [BEq T] (h : Heap T) (s : LList)
    (cells : List (Nat × T)) (hc : Chain h s cells) :
    ∃ h1 c, copy_construct h s = .ok () h1 c ∧
      ∀ calls h2 c2, run_calls calls h1 c = .ok () h2 c2 →
        elements h2 s = .ok (cells.map Prod.snd) ∧ elements h2 s = elements h s ∧
        h2.take h.length = h ∧ PtrGe h.length c2.head ∧ PtrGe h.length c2.tail ∧
        Closed h.length h2 := by
  obtain ⟨h1, c, ncells, hcopy, -, -, -, -, -⟩ := copy_nodes_new hc
  have ha1 : Above h h1 c := copy_loop_above _ h h1 LList.new c _ (above_new h) hcopy
  refine ⟨h1, c, hcopy, fun calls h2 c2 hr => ?_⟩
  obtain ⟨⟨ht, hh, htl, hcl, -⟩, -⟩ := run_calls_above calls ha1 hr
  have hc2 := chain_of_take ht hc
  exact ⟨elements_chain hc2, by rw [elements_chain hc2, elements_chain hc], ht, hh, htl, hcl⟩

/-- Witness of C14: the list of `main` after line 24 and any calls on its
copy. -/
theorem C14_copy_independent_witness :
    Chain str_heap str_list [(0, "Hello"), (1, "There"), (2, "World")] ∧
    ∃ h1 c, copy_construct str_heap str_list = .ok () h1 c ∧
      ∀ calls h2 c2, run_calls calls h1 c = .ok () h2 c2 →
        elements h2 str_list = .ok ["Hello", "There", "World"] ∧
        elements h2 str_list = elements str_heap str_list ∧
        h2.take str_heap.length = str_heap ∧ PtrGe str_heap.length c2.head ∧
        PtrGe str_heap.length c2.tail ∧ Closed str_heap.length h2 :=
  ⟨wf_chain str_wf, C14_copy_independent str_heap str_list _ (wf_chain str_wf)⟩

end rcd

namespace rcd

/-- C15 at its failing input.  From the empty list in an empty heap the calls
`push_back(1)`, `push_front(2)`, `erase(1)` (by index) all return normally and
leave `num_nodes = 1` with `head` and `tail` both null: the count is not zero
although both references are absent, and the walk from `head` visits no node
where the count says one. -/
theorem C15_count_without_nodes :
    run_calls [.push_back 1, .push_front 2, .erase_index 1] ([] : Heap Nat) LList.new =
      .ok () lost_heap lost_list ∧
    lost_list.size = 1 ∧ lost_list.head = none ∧ lost_list.tail = none ∧
    elements lost_heap lost_list = .ok [] ∧
    find lost_heap lost_list 2 = .ok false lost_heap lost_list :=
  ⟨by decide, rfl, rfl, rfl, rfl, by decide⟩

/-- C16 at its failing inputs.  On the list built by `push_back(10)`, which
satisfies the invariants, `push_front(5)` and `insert(0, 5)` return a list whose
chain is the new node 1 then node 0, where node 0 has no `prev` although node 1
comes before it.  On the list built by `push_back(10)`, `push_back(20)`,
`push_back(30)`, `insert(1, 5)` returns the chain of nodes 0, 3, 1, 2, where the
`prev` of node 1 is still node 0 and not the new node 3. -/
theorem C16_insertion_breaks_link_symmetry :
    WellFormed one_heap one_list [(0, 10)] ∧
    push_front one_heap one_list 5 =
      .ok () [some ⟨10, none, none⟩, some ⟨5, none, some 0⟩] ⟨some 1, some 0, 2⟩ ∧
    insert one_heap one_list 0 5 =
      .ok () [some ⟨10, none, none⟩, some ⟨5, none, some 0⟩] ⟨some 1, some 0, 2⟩ ∧
    Chain [some ⟨10, none, none⟩, some ⟨5, none, some 0⟩] ⟨some 1, some 0, 2⟩
      [(1, 5), (0, 10)] ∧
    ¬ DSeg [some ⟨10, none, none⟩, some ⟨5, none, some 0⟩] none [(1, 5), (0, 10)] none ∧
    WellFormed three_heap three_list [(0, 10), (1, 20), (2, 30)] ∧
    insert three_heap three_list 1 5 =
      .ok () [some ⟨10, none, some 3⟩, some ⟨20, some 0, some 2⟩, some ⟨30, some 1, none⟩,
        some ⟨5, some 0, some 1⟩] ⟨some 0, some 2, 4⟩ ∧
    Chain [some ⟨10, none, some 3⟩, some ⟨20, some 0, some 2⟩, some ⟨30, some 1, none⟩,
        some ⟨5, some 0, some 1⟩] ⟨some 0, some 2, 4⟩ [(0, 10), (3, 5), (1, 20), (2, 30)] ∧
    ¬ DSeg [some ⟨10, none, some 3⟩, some ⟨20, some 0, some 2⟩, some ⟨30, some 1, none⟩,
        some ⟨5, some 0, some 1⟩] none [(0, 10), (3, 5), (1, 20), (2, 30)] none := by
  refine ⟨one_wf, by decide, by decide, ⟨rfl, ⟨_, rfl, rfl, rfl⟩, ⟨_, rfl, rfl, rfl⟩, trivial⟩,
    fun hd => ?_, three_wf, by decide,
    ⟨rfl, ⟨_, rfl, rfl, rfl⟩, ⟨_, rfl, rfl, rfl⟩, ⟨_, rfl, rfl, rfl⟩, ⟨_, rfl, rfl, rfl⟩,
      trivial⟩, fun hd => ?_⟩
  · have h0 := hd.2.1
    exact absurd h0 (by decide)
  · have h1 := hd.2.2.1
    exact absurd h1 (by decide)

/-- C17 at its failing input.  From the empty list the calls `push_back(1)`,
`push_front(2)`, `erase(1)` (by index) return normally; in the state they
leave, `erase(0)` returns without changing anything (`num_nodes` stays 1, the
list stays non-empty), whether it erases at index 0 or by the value 0, so the
loop of `destroy_list` never ends, whatever the number of rounds allowed. -/
theorem C17_teardown_never_ends :
    run_calls [.push_back 1, .push_front 2, .erase_index 1] ([] : Heap Nat) LList.new =
      .ok () lost_heap lost_list ∧
    lost_list.empty = false ∧
    erase_index lost_heap lost_list 0 = .ok () lost_heap lost_list ∧
    ∀ zero : Option Nat,
      erase_zero zero lost_heap lost_list = .ok () lost_heap lost_list ∧
      destroy_list zero lost_heap lost_list = .diverges ∧
      ∀ fuel, destroy_loop zero fuel lost_heap lost_list = .diverges := by
  refine ⟨by decide, rfl, by decide, fun zero => ?_⟩
  have he : erase_zero zero lost_heap lost_list = .ok () lost_heap lost_list := by
    cases zero with
    | none => decide
    | some z => rfl
  have hloop : ∀ fuel, destroy_loop zero fuel lost_heap lost_list = .diverges := by
    intro fuel
    induction fuel with
    | zero =>
      unfold destroy_loop
      rfl
    | succ fuel ih =>
      unfold destroy_loop
      simp only [he, ih]
      rfl
  exact ⟨he, hloop _, hloop⟩

/-- C18, as amended.  In every list state with `num_nodes = 0`, and in every
list state whose `head` is a live node with no `prev` (so in every state that
satisfies the data-model invariants), `insert(0, v)` returns exactly what
`push_front(v)` returns: the same heap and the same list object. -/
theorem C18_insert_zero_is_push_front {T : Type} (h : Heap T) (l : LList) (v : T) :
    ((l.num_nodes = 0 ∨
        ∃ a c, l.head = some a ∧ h.deref (some a) = some c ∧ c.prev = none) →
      insert h l 0 v = push_front h l v) ∧
    (∀ cells, WellFormed h l cells → insert h l 0 v = push_front h l v) := by
  refine ⟨insert_zero_eq_push_front h l v, fun cells hw => ?_⟩
  apply insert_zero_eq_push_front
  cases cells with
  | nil => exact Or.inl hw.2.2.1
  | cons c rest => exact Or.inr ⟨c.1, _, hw.1, hw.2.2.2.2.1, rfl⟩

/-- Witness of C18 as amended, on the empty list and on the list built by
`push_back(10)`, `push_back(20)`. -/
theorem C18_insert_zero_is_push_front_witness :
    insert ([] : Heap Nat) LList.new 0 7 = push_front [] LList.new 7 ∧
    insert two_heap two_list 0 7 = push_front two_heap two_list 7 :=
  ⟨(C18_insert_zero_is_push_front ([] : Heap Nat) LList.new 7).1 (Or.inl rfl),
    (C18_insert_zero_is_push_front two_heap two_list 7).2 _ two_wf⟩

/-- C18 fails as stated.  In the state left by `push_back(1)`,
`push_front(2)`, `erase(1)` (by index), `insert(0, 7)` finds no node, allocates
nothing and only counts, while `push_front(7)` allocates a node and makes it
`head`. -/
theorem C18_counterexample :
    run_calls [.push_back 1, .push_front 2, .erase_index 1] ([] : Heap Nat) LList.new =
      .ok () lost_heap lost_list ∧
    insert lost_heap lost_list 0 7 = .ok () lost_heap ⟨none, none, 2⟩ ∧
    push_front lost_heap lost_list 7 =
      .ok () [none, some ⟨2, none, some 0⟩, some ⟨7, none, none⟩] ⟨some 2, none, 2⟩ ∧
    insert lost_heap lost_list 0 7 ≠ push_front lost_heap lost_list 7 :=
  ⟨by decide, by decide, by decide, by decide⟩

/-- C19.  For every list that satisfies the data-model invariants and every
value `v` whose first occurrence in the element sequence is at position `i`
(the element at `i` compares equal to `v` and none before it does),
`erase(v)` and `erase(i)` return the same: the same heap and the same list
object, which satisfies the invariants on the sequence without position `i`. -/
theorem C19_erase_value_is_erase_index {T : Type} [BEq T] (h : Heap T) (l : LList)
    (cells : List (Nat × T)) (v : T) (i : Nat) (x : T) (hw : WellFormed h l cells)
    (hx : (cells.map Prod.snd)[i]? = some x) (hv : (x == v) = true)
    (hfirst : ∀ j y, j < i → (cells.map Prod.snd)[j]? = some y → (y == v) = false) :
    erase h l v = erase_index h l i ∧
      ∃ h1 l1, erase h l v = .ok () h1 l1 ∧ WellFormed h1 l1 (cells.eraseIdx i) := by
  have hi : i < cells.length := by
    have := (List.getElem?_eq_some_iff.1 hx).1
    simpa using this
  have hd := dropWhile_eq_drop_of_first v cells i x hx hv hfirst
  obtain ⟨he, hei⟩ := erase_eq_unlink hw v hi hd
  obtain ⟨h1, l1, hr, hw1⟩ := erase_index_wf hw hi
  exact ⟨he.trans hei.symm, h1, l1, by rw [he, ← hei]; exact hr, hw1⟩

/-- Witness of C19: `erase(20)` and `erase(1)` on the list built by
`push_back(10)`, `push_back(20)`, `push_back(30)`. -/
theorem C19_erase_value_is_erase_index_witness :
    WellFormed three_heap three_list [(0, 10), (1, 20), (2, 30)] ∧
    erase three_heap three_list 20 = erase_index three_heap three_list 1 ∧
    ∃ h1 l1, erase three_heap three_list 20 = .ok () h1 l1 ∧
      WellFormed h1 l1 ([(0, 10), (1, 20), (2, 30)].eraseIdx 1) :=
  ⟨three_wf, C19_erase_value_is_erase_index three_heap three_list _ 20 1 20 three_wf rfl rfl
    (by
      intro j y hj hy
      have hj0 : j = 0 := by omega
      subst hj0
      simp only [List.map_cons, List.getElem?_cons_zero, Option.some.injEq] at hy
      subst hy
      decide)⟩

/-- C20 at its failing inputs.  After `push_back(1)`, `push_front(2)`,
`erase(1)` (by index) the list has `size() = 1` and a null `head`: `at(0)`
passes the range check and reads the data of an absent node.  After
`push_back(1)`, `push_back(3)`, `push_front(2)`, `erase(1)` the list has
`size() = 2` and a chain of one node: `at(1)` passes the range check, follows
the null `next` of that node and reads the data of an absent node. -/
theorem C20_in_range_access_leaves_chain :
    run_calls [.push_back 1, .push_front 2, .erase_index 1] ([] : Heap Nat) LList.new =
      .ok () lost_heap lost_list ∧
    0 < lost_list.size ∧
    at_index lost_heap lost_list 0 = .undefined ∧
    operator_index lost_heap lost_list 0 = .undefined ∧
    run_calls [.push_back 1, .push_back 3, .push_front 2, .erase_index 1] ([] : Heap Nat)
        LList.new =
      .ok () [none, some ⟨3, none, none⟩, some ⟨2, none, some 0⟩] ⟨some 1, some 1, 2⟩ ∧
    at_index [none, some ⟨3, none, none⟩, some ⟨2, none, some 0⟩] ⟨some 1, some 1, 2⟩ 1 =
      .undefined ∧
    at_index [none, some ⟨3, none, none⟩, some ⟨2, none, some 0⟩] ⟨some 1, some 1, 2⟩ 0 =
      .ok 3 [none, some ⟨3, none, none⟩, some ⟨2, none, some 0⟩] ⟨some 1, some 1, 2⟩ :=
  ⟨by decide, by decide, by decide, by decide, by decide, by decide, by decide⟩

end rcd
